import Mathlib

/-!
# MemoryPool: a size-classed pool allocator

Shallow embedding of `MemoryPoolAligned/MemPool.h` and `MemoryPoolAligned/MemPool.cpp`.

* Addresses (`void*`) are natural numbers and `nullptr` is `0`.
* `uint32_t` arithmetic is arithmetic on `Nat` reduced modulo `UINT32`.
* A `std::map` is an association list kept in ascending key order, so that
  iterating the list is iterating the map.
* A `SubPool*` is represented by the key under which the pool is stored in
  `sub_pools` (its chunk size): `Initialize` creates exactly one pool per key
  and pools are never removed.
* Mutexes are not modelled: every call runs to completion on its own.
* Dereferencing a pool that is missing from `sub_pools` is a null-pointer
  dereference in the source; `MemPool.Alloc` and `MemPool.Free` return `none`
  there.
-/

namespace MemoryPool

/-- The modulus of `uint32_t` arithmetic. -/
def UINT32 : Nat := 4294967296

/-! ## std::map -/

/-- The lookup `std::map::find`: the value stored under `k`, if any. -/
def mapFind {β : Type} (k : Nat) : List (Nat × β) → Option β
  | [] => none
  | (k', v) :: rest => if k = k' then some v else mapFind k rest

/-- The insertion `std::map::insert`: puts `(k, v)` at its place in key order,
and leaves the map alone when the key is already present. -/
def mapInsert {β : Type} (k : Nat) (v : β) : List (Nat × β) → List (Nat × β)
  | [] => [(k, v)]
  | (k', v') :: rest =>
    if k < k' then (k, v) :: (k', v') :: rest
    else if k = k' then (k', v') :: rest
    else (k', v') :: mapInsert k v rest

/-- The assignment `m[k] = v` (also `it->second = v` for an iterator at `k`):
overwrites the value of an existing key, inserts in key order otherwise. -/
def mapAssign {β : Type} (k : Nat) (v : β) : List (Nat × β) → List (Nat × β)
  | [] => [(k, v)]
  | (k', v') :: rest =>
    if k < k' then (k, v) :: (k', v') :: rest
    else if k = k' then (k', v) :: rest
    else (k', v') :: mapAssign k v rest

/-! ## SubPool -/

/-- The class `SubPool` (without its mutex). In `chunks` the flag is `true`
when the chunk is free. -/
structure SubPool where
  chunk_size : Nat
  chunk_count : Nat
  chunks : List (Nat × Bool)
deriving DecidableEq, Repr

/-- The constructor `SubPool::SubPool(p_chunk_size)`. -/
def SubPool.new (p_chunk_size : Nat) : SubPool :=
  { chunk_size := p_chunk_size, chunk_count := 0, chunks := [] }

/-- The loop of `SubPool::Alloc`: walks the map in key order, marks the first
free chunk as used and returns its address; returns `nullptr` (`0`) when no
chunk is free. -/
def SubPool.scanFree : List (Nat × Bool) → Nat × List (Nat × Bool)
  | [] => (0, [])
  | (ptr, isFree) :: rest =>
    if isFree then (ptr, (ptr, false) :: rest)
    else ((SubPool.scanFree rest).1, (ptr, isFree) :: (SubPool.scanFree rest).2)

/-- The method `SubPool::Alloc()`. -/
def SubPool.Alloc (sp : SubPool) : Nat × SubPool :=
  ((SubPool.scanFree sp.chunks).1, { sp with chunks := (SubPool.scanFree sp.chunks).2 })

/-- The method `SubPool::Free(ptr)`. -/
def SubPool.Free (sp : SubPool) (ptr : Nat) : Bool × SubPool :=
  match mapFind ptr sp.chunks with
  | some isFree =>
    if isFree then (false, sp)
    else (true, { sp with chunks := mapAssign ptr true sp.chunks })
  | none => (false, sp)

/-- The method `SubPool::AddNewChunk(ptr)`. -/
def SubPool.AddNewChunk (sp : SubPool) (ptr : Nat) : Bool × SubPool :=
  (true, { sp with chunks := mapInsert ptr true sp.chunks,
                   chunk_count := (sp.chunk_count + 1) % UINT32 })

/-- The method `SubPool::getNumUnfreedChunks()`. -/
def SubPool.getNumUnfreedChunks (sp : SubPool) : Nat :=
  sp.chunks.foldl (fun ret_val it => (ret_val + (if it.2 then 0 else 1)) % UINT32) 0

/-! ## std::align -/

/-- The number of bytes `std::align` skips to reach the next address on the
boundary `bound`, computed with the bit mask `bound - 1` as the C++ standard
libraries do (the standard requires `bound` to be a power of two). -/
def alignOffset (bound ptr : Nat) : Nat :=
  if ptr &&& (bound - 1) = 0 then 0 else bound - (ptr &&& (bound - 1))

/-- The library function `std::align(bound, size, ptr, space)`: `none` is the
null result, which leaves `ptr` and `space` alone; `some (ptr', space')` is the
non-null result `ptr'` together with the updated `space`. -/
def std_align (bound size ptr space : Nat) : Option (Nat × Nat) :=
  if space < alignOffset bound ptr ∨ space - alignOffset bound ptr < size then none
  else some (ptr + alignOffset bound ptr, space - alignOffset bound ptr)

/-! ## MemPool -/

/-- The class `MemPool` (without its mutex). `buffer` is the address of the
array allocated by the constructor. -/
structure MemPool where
  max_memory : Nat
  alignment : Nat
  chunk_sizes : List Nat
  sub_pools : List (Nat × SubPool)
  buffer : Nat
  read_buffer : Nat
  available_size : Nat
  subpool_register : List (Nat × Nat)
deriving DecidableEq, Repr

/-- The constructor `MemPool::MemPool(p_max_memory, p_alignment)`; `buf` is the
address returned by `new uint8_t[max_memory]`. -/
def MemPool.new (p_max_memory p_alignment buf : Nat) : MemPool :=
  { max_memory := p_max_memory, alignment := p_alignment, chunk_sizes := [],
    sub_pools := [], buffer := buf, read_buffer := buf,
    available_size := p_max_memory, subpool_register := [] }

/-- The algorithm `std::unique` on a vector: keeps the first element of every
run of equal elements. -/
def unique : List Nat → List Nat
  | [] => []
  | [a] => [a]
  | a :: b :: rest => if a = b then unique (b :: rest) else a :: unique (b :: rest)

/-- The first loop of `MemPool::Initialize`: `none` when a chunk size is not a
multiple of the alignment, otherwise the `uint32_t` sum of the chunk sizes. -/
def checkSizes (alignment : Nat) : List Nat → Nat → Option Nat
  | [], sum_chunk_size => some sum_chunk_size
  | chunk_size :: rest, sum_chunk_size =>
    if chunk_size % alignment ≠ 0 then none
    else checkSizes alignment rest ((sum_chunk_size + chunk_size) % UINT32)

/-- The method `MemPool::Initialize(p_chunk_sizes)`. The division by a zero
`alignment` is undefined in the source; the results below assume
`0 < alignment`. -/
def MemPool.Initialize (st : MemPool) (p_chunk_sizes : List Nat) : Bool × MemPool :=
  let st1 := { st with chunk_sizes := unique (p_chunk_sizes.insertionSort (· ≤ ·)) }
  match checkSizes st1.alignment st1.chunk_sizes 0 with
  | none => (false, st1)
  | some sum_chunk_size =>
    if sum_chunk_size > st1.max_memory then (false, st1)
    else (true, { st1 with
      sub_pools := st1.chunk_sizes.foldl
        (fun m chunk_size => mapInsert chunk_size (SubPool.new chunk_size) m) st1.sub_pools })

/-- The call `sub_pools[chunk_size]->Alloc()` of `MemPool::Alloc`. -/
def MemPool.poolAlloc (st : MemPool) (chunk_size : Nat) : Option (Nat × MemPool) :=
  match mapFind chunk_size st.sub_pools with
  | none => none
  | some sp =>
    some ((sp.Alloc).1, { st with sub_pools := mapAssign chunk_size (sp.Alloc).2 st.sub_pools })

/-- The branch `if (chunk_ptr == nullptr)` of `MemPool::Alloc` (lines 186-240):
tries to take a new chunk of `chunk_size` bytes from the buffer. Every path
through it leaves the loop, and the pair is what `MemPool::Alloc` then
returns, with the state it leaves behind. -/
def MemPool.carve (st : MemPool) (chunk_size : Nat) : Option (Nat × MemPool) :=
  if 0 < st.available_size then
    match std_align st.alignment chunk_size st.read_buffer st.available_size with
    | some (res, space) =>
      match mapFind chunk_size st.sub_pools with
      | none => none
      | some sp =>
        let st1 := { st with
          sub_pools := mapAssign chunk_size (((sp.AddNewChunk res).2).Alloc).2 st.sub_pools,
          read_buffer := res + chunk_size,
          available_size := (space + UINT32 - chunk_size) % UINT32 }
        if (((sp.AddNewChunk res).2).Alloc).1 ≠ 0 then
          some ((((sp.AddNewChunk res).2).Alloc).1,
            { st1 with subpool_register :=
                mapAssign (((sp.AddNewChunk res).2).Alloc).1 chunk_size st1.subpool_register })
        else some (0, st1)
    | none => some (0, st)
  else some (0, st)

/-- The loop `for (uint32_t chunk_size : chunk_sizes)` of `MemPool::Alloc`,
started on the chunk sizes still to visit with the current `chunk_ptr`. -/
def MemPool.allocLoop (size : Nat) : List Nat → Nat → MemPool → Option (Nat × MemPool)
  | [], chunk_ptr, st => some (chunk_ptr, st)
  | chunk_size :: rest, chunk_ptr, st =>
    if size ≤ chunk_size then
      match st.poolAlloc chunk_size with
      | none => none
      | some (p, st1) =>
        if p = 0 then st1.carve chunk_size
        else MemPool.allocLoop size rest p st1
    else MemPool.allocLoop size rest chunk_ptr st

/-- The method `MemPool::Alloc(size)`: the returned address (`0` is `nullptr`)
and the state after the call. -/
def MemPool.Alloc (st : MemPool) (size : Nat) : Option (Nat × MemPool) :=
  MemPool.allocLoop size st.chunk_sizes 0 st

/-- The method `MemPool::Free(ptr)`: the returned boolean and the state after
the call. -/
def MemPool.Free (st : MemPool) (ptr : Nat) : Option (Bool × MemPool) :=
  if ptr = 0 then some (false, st)
  else
    match mapFind ptr st.subpool_register with
    | none => some (false, st)
    | some k =>
      match mapFind k st.sub_pools with
      | none => none
      | some sp =>
        some ((sp.Free ptr).1, { st with sub_pools := mapAssign k (sp.Free ptr).2 st.sub_pools })

/-! ## Reachable states -/

/-- The states of an allocator that was constructed with a capacity that fits
`uint32_t`, a non-zero alignment and a non-null buffer, initialized
successfully, and then used through `Alloc` and `Free`. The list holds the
live addresses: those returned by `Alloc` (non-null) and not freed since by a
successful `Free`. -/
inductive Reachable : MemPool → List Nat → Prop
  | init (p_max_memory p_alignment buf : Nat) (sizes : List Nat) (st : MemPool) :
      p_max_memory < UINT32 → 0 < p_alignment → 0 < buf →
      (MemPool.new p_max_memory p_alignment buf).Initialize sizes = (true, st) →
      Reachable st []
  | alloc (st st' : MemPool) (live : List Nat) (size p : Nat) :
      Reachable st live → st.Alloc size = some (p, st') →
      Reachable st' (if p = 0 then live else p :: live)
  | free (st st' : MemPool) (live : List Nat) (ptr : Nat) (b : Bool) :
      Reachable st live → st.Free ptr = some (b, st') →
      Reachable st' (if b then live.filter (fun q => q ≠ ptr) else live)

/-- The states of an allocator as in `Reachable`, with the list of all the
non-null addresses that `Alloc` has returned since `Initialize`. -/
inductive Returned : MemPool → List Nat → Prop
  | init (p_max_memory p_alignment buf : Nat) (sizes : List Nat) (st : MemPool) :
      p_max_memory < UINT32 → 0 < p_alignment → 0 < buf →
      (MemPool.new p_max_memory p_alignment buf).Initialize sizes = (true, st) →
      Returned st []
  | alloc (st st' : MemPool) (rets : List Nat) (size p : Nat) :
      Returned st rets → st.Alloc size = some (p, st') →
      Returned st' (if p = 0 then rets else p :: rets)
  | free (st st' : MemPool) (rets : List Nat) (ptr : Nat) (b : Bool) :
      Returned st rets → st.Free ptr = some (b, st') → Returned st' rets

/-- The states that a constructed allocator reaches by any series of calls of
`Initialize`, `Alloc` and `Free`, whatever `Initialize` returns. -/
inductive Constructed : MemPool → Prop
  | new (p_max_memory p_alignment buf : Nat) :
      p_max_memory < UINT32 → 0 < p_alignment → 0 < buf →
      Constructed (MemPool.new p_max_memory p_alignment buf)
  | init (st : MemPool) (sizes : List Nat) :
      Constructed st → Constructed (st.Initialize sizes).2
  | alloc (st st' : MemPool) (size p : Nat) :
      Constructed st → st.Alloc size = some (p, st') → Constructed st'
  | free (st st' : MemPool) (ptr : Nat) (b : Bool) :
      Constructed st → st.Free ptr = some (b, st') → Constructed st'

/-- The bytes before `read_buffer` and the bytes still available make up the
buffer. -/
def Balanced (st : MemPool) : Prop :=
  st.read_buffer + st.available_size = st.buffer + st.max_memory ∧
    st.buffer ≤ st.read_buffer ∧ st.max_memory < UINT32

/-- The keys of a map are in strictly ascending order. -/
def KeysSorted {β : Type} (m : List (Nat × β)) : Prop :=
  m.Pairwise (fun a b => a.1 < b.1)

/-- What the allocator keeps true of the pool stored under the key `k`:
`buf`, `cursor`, `al` and `reg` are the allocator's `buffer`, `read_buffer`,
`alignment` and `subpool_register`. -/
structure PoolInv (buf cursor al : Nat) (reg : List (Nat × Nat)) (k : Nat)
    (sp : SubPool) : Prop where
  size_eq : sp.chunk_size = k
  sorted : KeysSorted sp.chunks
  bounds : ∀ a f, (a, f) ∈ sp.chunks → buf ≤ a ∧ a + k ≤ cursor
  aligned : ∀ a f, (a, f) ∈ sp.chunks → ∀ n, al = 2 ^ n → a % al = 0
  registered : ∀ a f, (a, f) ∈ sp.chunks →
    ∃ k', mapFind a reg = some k' ∧ (0 < k → k' = k)

/-- The invariant of the allocator states. -/
structure Inv (st : MemPool) : Prop where
  pools_sorted : KeysSorted st.sub_pools
  sizes_sorted : st.chunk_sizes.Pairwise (fun a b => a < b)
  pools_exist : ∀ c ∈ st.chunk_sizes, ∃ sp, mapFind c st.sub_pools = some sp
  pool_inv : ∀ k sp, mapFind k st.sub_pools = some sp →
    PoolInv st.buffer st.read_buffer st.alignment st.subpool_register k sp
  reg_ok : ∀ p k, mapFind p st.subpool_register = some k →
    k ∈ st.chunk_sizes ∧
      ∃ sp f, mapFind k st.sub_pools = some sp ∧ mapFind p sp.chunks = some f
  balance : st.read_buffer + st.available_size = st.buffer + st.max_memory
  cursor_ge : st.buffer ≤ st.read_buffer
  max_lt : st.max_memory < UINT32
  buf_pos : 0 < st.buffer

/-- Every address of the list is registered, and marked used in the pool it is
registered to. -/
def LiveOK (st : MemPool) (live : List Nat) : Prop :=
  ∀ p ∈ live, ∃ k sp, mapFind p st.subpool_register = some k ∧
    mapFind k st.sub_pools = some sp ∧ mapFind p sp.chunks = some false

/-- The state `st1` differs from `st` in its pools only. -/
def Frame (st st1 : MemPool) : Prop :=
  st1 = { st with sub_pools := st1.sub_pools }

/-- The state `st'` has the configuration of `st`: capacity, alignment, chunk
sizes and buffer. -/
def SameConfig (st st' : MemPool) : Prop :=
  st'.max_memory = st.max_memory ∧ st'.alignment = st.alignment ∧
    st'.chunk_sizes = st.chunk_sizes ∧ st'.buffer = st.buffer

/-! ## Series of calls and the allocators of the tests -/

/-- A call of the public interface after `Initialize`. -/
inductive Call where
  | alloc (size : Nat)
  | free (ptr : Nat)
deriving DecidableEq, Repr

/-- The value a call returns. -/
inductive Ret where
  | addr (p : Nat)
  | done (b : Bool)
deriving DecidableEq, Repr

/-- Runs a series of calls one after the other: the values returned, in order,
and the last state. -/
def MemPool.run : MemPool → List Call → Option (List Ret × MemPool)
  | st, [] => some ([], st)
  | st, Call.alloc size :: rest =>
    match st.Alloc size with
    | none => none
    | some (p, st1) =>
      match MemPool.run st1 rest with
      | none => none
      | some (rs, st2) => some (Ret.addr p :: rs, st2)
  | st, Call.free ptr :: rest =>
    match st.Free ptr with
    | none => none
    | some (b, st1) =>
      match MemPool.run st1 rest with
      | none => none
      | some (rs, st2) => some (Ret.done b :: rs, st2)

/-- The allocator of the fixture `MemPoolManagement` of `test.cpp` after
`Initialize({64, 128, 256})`, with its buffer at address 4096. -/
def testPool : MemPool :=
  { max_memory := 2048, alignment := 8, chunk_sizes := [64, 128, 256],
    sub_pools := [(64, SubPool.new 64), (128, SubPool.new 128), (256, SubPool.new 256)],
    buffer := 4096, read_buffer := 4096, available_size := 2048,
    subpool_register := [] }

/-- The state of `testPool` after one `Alloc(50)`, which returns 4096. -/
def testPool1 : MemPool :=
  { testPool with
    sub_pools := [(64, { chunk_size := 64, chunk_count := 1, chunks := [(4096, false)] }),
      (128, SubPool.new 128), (256, SubPool.new 256)],
    read_buffer := 4160, available_size := 1984, subpool_register := [(4096, 64)] }

/-- The state of `testPool1` after `Free(4096)`. -/
def testPool2 : MemPool :=
  { testPool1 with
    sub_pools := [(64, { chunk_size := 64, chunk_count := 1, chunks := [(4096, true)] }),
      (128, SubPool.new 128), (256, SubPool.new 256)] }

/-- The state of `testPool2` after a further `Alloc(50)`, which returns 4160. -/
def testPool3 : MemPool :=
  { testPool with
    sub_pools := [(64, { chunk_size := 64, chunk_count := 1, chunks := [(4096, false)] }),
      (128, { chunk_size := 128, chunk_count := 1, chunks := [(4160, false)] }),
      (256, SubPool.new 256)],
    read_buffer := 4288, available_size := 1856,
    subpool_register := [(4096, 64), (4160, 128)] }

/-- An allocator of capacity 1024 and alignment 8 with its buffer at 4096,
after `Initialize({0, 64})`. -/
def zeroPool : MemPool :=
  { max_memory := 1024, alignment := 8, chunk_sizes := [0, 64],
    sub_pools := [(0, SubPool.new 0), (64, SubPool.new 64)],
    buffer := 4096, read_buffer := 4096, available_size := 1024,
    subpool_register := [] }

/-- The state of `zeroPool` after one `Alloc(0)`, which returns 4096. -/
def zeroPool1 : MemPool :=
  { zeroPool with
    sub_pools := [(0, { chunk_size := 0, chunk_count := 1, chunks := [(4096, false)] }),
      (64, SubPool.new 64)],
    subpool_register := [(4096, 0)] }

/-- The state of `zeroPool1` after a second `Alloc(0)`, which returns null. -/
def zeroPool2 : MemPool :=
  { zeroPool with
    sub_pools := [(0, { chunk_size := 0, chunk_count := 2, chunks := [(4096, false)] }),
      (64, SubPool.new 64)],
    subpool_register := [(4096, 0)] }

/-- An allocator of capacity 24 and alignment 8 with its buffer at 4096, after
`Initialize({8, 16})`. -/
def smallPool : MemPool :=
  { max_memory := 24, alignment := 8, chunk_sizes := [8, 16],
    sub_pools := [(8, SubPool.new 8), (16, SubPool.new 16)],
    buffer := 4096, read_buffer := 4096, available_size := 24,
    subpool_register := [] }

/-- The state of `smallPool` after `Alloc(16)`, which returns 4096. -/
def smallPool1 : MemPool :=
  { smallPool with
    sub_pools := [(8, SubPool.new 8),
      (16, { chunk_size := 16, chunk_count := 1, chunks := [(4096, false)] })],
    read_buffer := 4112, available_size := 8, subpool_register := [(4096, 16)] }

/-- The state of `smallPool1` after `Alloc(8)`, which returns 4112. -/
def smallPool2 : MemPool :=
  { smallPool with
    sub_pools := [(8, { chunk_size := 8, chunk_count := 1, chunks := [(4112, false)] }),
      (16, { chunk_size := 16, chunk_count := 1, chunks := [(4096, false)] })],
    read_buffer := 4120, available_size := 0,
    subpool_register := [(4096, 16), (4112, 8)] }

/-- The state of `smallPool2` after `Free(4112)`. -/
def smallPool3 : MemPool :=
  { smallPool2 with
    sub_pools := [(8, { chunk_size := 8, chunk_count := 1, chunks := [(4112, true)] }),
      (16, { chunk_size := 16, chunk_count := 1, chunks := [(4096, false)] })] }

/-- The state of `smallPool2` after `Free(4096)`: no byte is available, the
chunk of the pool of 8 is used and the chunk of the pool of 16 is free. -/
def smallPool5 : MemPool :=
  { smallPool2 with
    sub_pools := [(8, { chunk_size := 8, chunk_count := 1, chunks := [(4112, false)] }),
      (16, { chunk_size := 16, chunk_count := 1, chunks := [(4096, true)] })] }

/-- An allocator of capacity 72 and alignment 24 with its buffer at 4104, after
`Initialize({24})`. -/
def oddPool : MemPool :=
  { max_memory := 72, alignment := 24, chunk_sizes := [24],
    sub_pools := [(24, SubPool.new 24)],
    buffer := 4104, read_buffer := 4104, available_size := 72,
    subpool_register := [] }

/-- The state of `oddPool` after two calls `Alloc(24)`, which return 4104 and
4128. -/
def oddPool2 : MemPool :=
  { oddPool with
    sub_pools := [(24, { chunk_size := 24, chunk_count := 2,
                         chunks := [(4104, false), (4128, false)] })],
    read_buffer := 4152, available_size := 24,
    subpool_register := [(4104, 24), (4128, 24)] }

/-- The alignment padding of the specification: the number of bytes from `ptr`
to the next multiple of `alignment` at or after it. -/
def padding (alignment ptr : Nat) : Nat :=
  (alignment - ptr % alignment) % alignment

/-- The chunk `a` is in the map of the pool stored under the key `k`. -/
def ChunkAt (st : MemPool) (k a : Nat) : Prop :=
  ∃ sp f, mapFind k st.sub_pools = some sp ∧ (a, f) ∈ sp.chunks

/-- Any two distinct chunks occupy byte ranges that do not meet. -/
def ChunksApart (st : MemPool) : Prop :=
  ∀ k a k' a', ChunkAt st k a → ChunkAt st k' a' → (a ≠ a' ∨ k ≠ k') →
    a + k ≤ a' ∨ a' + k' ≤ a

/-- Every pool is stored under one of the configured chunk sizes. -/
def PoolKeys (st : MemPool) : Prop :=
  ∀ k sp, mapFind k st.sub_pools = some sp → k ∈ st.chunk_sizes

/-- A pool of 64-byte chunks with one used chunk and two free ones. -/
def examplePool : SubPool :=
  { chunk_size := 64, chunk_count := 3,
    chunks := [(4096, false), (4160, true), (4224, true)] }

/-! ## Lemmas on maps -/

theorem mapFind_mapAssign_self {β : Type} (k : Nat) (v : β) (m : List (Nat × β)) :
    mapFind k (mapAssign k v m) = some v := by
  induction m with
  | nil => simp [mapAssign, mapFind]
  | cons hd tl ih =>
    obtain ⟨k', v'⟩ := hd
    simp only [mapAssign]
    split_ifs with h1 h2
    · simp [mapFind]
    · simp [mapFind, h2]
    · simp [mapFind, h2, ih]

theorem mapFind_mapAssign_ne {β : Type} {k k' : Nat} (v : β) (m : List (Nat × β))
    (h : k ≠ k') : mapFind k (mapAssign k' v m) = mapFind k m := by
  induction m with
  | nil => simp [mapAssign, mapFind, h]
  | cons hd tl ih =>
    obtain ⟨k2, v2⟩ := hd
    simp only [mapAssign]
    split_ifs with h1 h2
    · simp [mapFind, h]
    · subst h2; simp [mapFind, h]
    · simp [mapFind, ih]

theorem mapFind_mapAssign {β : Type} (k k' : Nat) (v : β) (m : List (Nat × β)) :
    mapFind k (mapAssign k' v m) = if k = k' then some v else mapFind k m := by
  split_ifs with h
  · subst h; exact mapFind_mapAssign_self k v m
  · exact mapFind_mapAssign_ne v m h

theorem mapFind_mapInsert_ne {β : Type} {k k' : Nat} (v : β) (m : List (Nat × β))
    (h : k ≠ k') : mapFind k (mapInsert k' v m) = mapFind k m := by
  induction m with
  | nil => simp [mapInsert, mapFind, h]
  | cons hd tl ih =>
    obtain ⟨k2, v2⟩ := hd
    simp only [mapInsert]
    split_ifs with h1 h2
    · simp [mapFind, h]
    · rfl
    · simp [mapFind, ih]

theorem mapFind_mapInsert_of_none {β : Type} (k : Nat) (v : β) (m : List (Nat × β))
    (h : mapFind k m = none) : mapFind k (mapInsert k v m) = some v := by
  induction m with
  | nil => simp [mapInsert, mapFind]
  | cons hd tl ih =>
    obtain ⟨k2, v2⟩ := hd
    simp only [mapFind] at h
    split_ifs at h with h0
    simp only [mapInsert]
    split_ifs with h1
    · simp [mapFind]
    · simp [mapFind, h0, ih h]

theorem mapFind_some_mem {β : Type} {k : Nat} {v : β} {m : List (Nat × β)}
    (h : mapFind k m = some v) : (k, v) ∈ m := by
  induction m with
  | nil => simp [mapFind] at h
  | cons hd tl ih =>
    obtain ⟨k2, v2⟩ := hd
    simp only [mapFind] at h
    split_ifs at h with h0
    · subst h0; simp at h; subst h; simp
    · exact List.mem_cons_of_mem _ (ih h)

theorem mapFind_none_iff {β : Type} (k : Nat) (m : List (Nat × β)) :
    mapFind k m = none ↔ ∀ e ∈ m, e.1 ≠ k := by
  induction m with
  | nil => simp [mapFind]
  | cons hd tl ih =>
    obtain ⟨k2, v2⟩ := hd
    simp only [mapFind]
    split_ifs with h0
    · subst h0; simp
    · simp [ih, Ne.symm h0]

theorem mapFind_of_mem {β : Type} {k : Nat} {v : β} {m : List (Nat × β)}
    (hs : KeysSorted m) (h : (k, v) ∈ m) : mapFind k m = some v := by
  induction m with
  | nil => simp at h
  | cons hd tl ih =>
    obtain ⟨k2, v2⟩ := hd
    have hs' := List.pairwise_cons.mp hs
    simp only [mapFind]
    rcases List.mem_cons.mp h with h1 | h1
    · simp only [Prod.mk.injEq] at h1
      simp [h1.1, h1.2]
    · have := hs'.1 _ h1
      simp only at this
      rw [if_neg (by omega)]
      exact ih hs'.2 h1

theorem mapFind_isSome_of_key {β : Type} {k : Nat} {m : List (Nat × β)}
    (h : ∃ e ∈ m, e.1 = k) : ∃ v, mapFind k m = some v := by
  cases hf : mapFind k m with
  | some v => exact ⟨v, rfl⟩
  | none =>
    obtain ⟨e, he, hk⟩ := h
    exact absurd hk ((mapFind_none_iff k m).mp hf e he)

theorem mapAssign_of_find {β : Type} {k : Nat} {v : β} {m : List (Nat × β)}
    (hs : KeysSorted m) (h : mapFind k m = some v) : mapAssign k v m = m := by
  induction m with
  | nil => simp [mapFind] at h
  | cons hd tl ih =>
    obtain ⟨k2, v2⟩ := hd
    have hs' := List.pairwise_cons.mp hs
    simp only [mapFind] at h
    simp only [mapAssign]
    split_ifs at h with h0
    · subst h0; simp at h; subst h; simp
    · have hm := hs'.1 _ (mapFind_some_mem h)
      simp only at hm
      rw [if_neg (by omega), if_neg h0, ih hs'.2 h]

theorem mapInsert_of_find {β : Type} {k : Nat} {v v' : β} {m : List (Nat × β)}
    (hs : KeysSorted m) (h : mapFind k m = some v') : mapInsert k v m = m := by
  induction m with
  | nil => simp [mapFind] at h
  | cons hd tl ih =>
    obtain ⟨k2, v2⟩ := hd
    have hs' := List.pairwise_cons.mp hs
    simp only [mapFind] at h
    simp only [mapInsert]
    split_ifs at h with h0
    · subst h0; simp
    · have hm := hs'.1 _ (mapFind_some_mem h)
      simp only at hm
      rw [if_neg (by omega), if_neg h0, ih hs'.2 h]

theorem mem_mapInsert {β : Type} {k : Nat} {v : β} {m : List (Nat × β)} {e : Nat × β}
    (h : e ∈ mapInsert k v m) : e = (k, v) ∨ e ∈ m := by
  induction m with
  | nil => simpa [mapInsert] using h
  | cons hd tl ih =>
    obtain ⟨k2, v2⟩ := hd
    simp only [mapInsert] at h
    split_ifs at h with h1 h2
    · simpa using h
    · exact Or.inr h
    · rcases List.mem_cons.mp h with h3 | h3
      · exact Or.inr (h3 ▸ List.mem_cons_self _ _)
      · rcases ih h3 with h4 | h4
        · exact Or.inl h4
        · exact Or.inr (List.mem_cons_of_mem _ h4)

theorem mem_mapAssign {β : Type} {k : Nat} {v : β} {m : List (Nat × β)} {e : Nat × β}
    (h : e ∈ mapAssign k v m) : e = (k, v) ∨ e ∈ m := by
  induction m with
  | nil => simpa [mapAssign] using h
  | cons hd tl ih =>
    obtain ⟨k2, v2⟩ := hd
    simp only [mapAssign] at h
    split_ifs at h with h1 h2
    · simpa using h
    · rcases List.mem_cons.mp h with h3 | h3
      · subst h2; exact Or.inl h3
      · exact Or.inr (List.mem_cons_of_mem _ h3)
    · rcases List.mem_cons.mp h with h3 | h3
      · exact Or.inr (h3 ▸ List.mem_cons_self _ _)
      · rcases ih h3 with h4 | h4
        · exact Or.inl h4
        · exact Or.inr (List.mem_cons_of_mem _ h4)

theorem keysSorted_mapInsert {β : Type} (k : Nat) (v : β) {m : List (Nat × β)}
    (hs : KeysSorted m) : KeysSorted (mapInsert k v m) := by
  induction m with
  | nil => simp [mapInsert, KeysSorted]
  | cons hd tl ih =>
    obtain ⟨k2, v2⟩ := hd
    have hs' := List.pairwise_cons.mp hs
    simp only [mapInsert]
    split_ifs with h1 h2
    · refine List.pairwise_cons.mpr ⟨?_, hs⟩
      intro e he
      rcases List.mem_cons.mp he with h3 | h3
      · subst h3; exact h1
      · have := hs'.1 e h3
        simp only at this ⊢
        omega
    · exact hs
    · refine List.pairwise_cons.mpr ⟨?_, ih hs'.2⟩
      intro e he
      rcases mem_mapInsert he with h3 | h3
      · subst h3; simp only; omega
      · exact hs'.1 e h3

theorem keysSorted_mapAssign {β : Type} (k : Nat) (v : β) {m : List (Nat × β)}
    (hs : KeysSorted m) : KeysSorted (mapAssign k v m) := by
  induction m with
  | nil => simp [mapAssign, KeysSorted]
  | cons hd tl ih =>
    obtain ⟨k2, v2⟩ := hd
    have hs' := List.pairwise_cons.mp hs
    simp only [mapAssign]
    split_ifs with h1 h2
    · refine List.pairwise_cons.mpr ⟨?_, hs⟩
      intro e he
      rcases List.mem_cons.mp he with h3 | h3
      · subst h3; exact h1
      · have := hs'.1 e h3
        simp only at this ⊢
        omega
    · exact List.pairwise_cons.mpr ⟨hs'.1, hs'.2⟩
    · refine List.pairwise_cons.mpr ⟨?_, ih hs'.2⟩
      intro e he
      rcases mem_mapAssign he with h3 | h3
      · subst h3; simp only; omega
      · exact hs'.1 e h3

/-! ## Lemmas on `SubPool.scanFree` -/

theorem scanFree_mem_key {l : List (Nat × Bool)} {e : Nat × Bool}
    (h : e ∈ (SubPool.scanFree l).2) : ∃ f, (e.1, f) ∈ l := by
  induction l with
  | nil => simp [SubPool.scanFree] at h
  | cons hd tl ih =>
    obtain ⟨a, f⟩ := hd
    simp only [SubPool.scanFree] at h
    split_ifs at h with h1
    · rcases List.mem_cons.mp h with h2 | h2
      · subst h2; exact ⟨f, by simp⟩
      · exact ⟨e.2, List.mem_cons_of_mem _ h2⟩
    · rcases List.mem_cons.mp h with h2 | h2
      · subst h2; exact ⟨f, by simp⟩
      · obtain ⟨f', hf'⟩ := ih h2
        exact ⟨f', List.mem_cons_of_mem _ hf'⟩

theorem scanFree_sorted {l : List (Nat × Bool)} (hs : KeysSorted l) :
    KeysSorted (SubPool.scanFree l).2 := by
  induction l with
  | nil => simp [SubPool.scanFree, KeysSorted]
  | cons hd tl ih =>
    obtain ⟨a, f⟩ := hd
    have hs' := List.pairwise_cons.mp hs
    simp only [SubPool.scanFree]
    split_ifs with h1
    · exact List.pairwise_cons.mpr ⟨hs'.1, hs'.2⟩
    · refine List.pairwise_cons.mpr ⟨?_, ih hs'.2⟩
      intro e he
      obtain ⟨f', hf'⟩ := scanFree_mem_key he
      exact hs'.1 (e.1, f') hf'

theorem scanFree_find_false {l : List (Nat × Bool)} {q : Nat}
    (h : mapFind q l = some false) : mapFind q (SubPool.scanFree l).2 = some false := by
  induction l with
  | nil => simp [mapFind] at h
  | cons hd tl ih =>
    obtain ⟨a, f⟩ := hd
    simp only [mapFind] at h
    simp only [SubPool.scanFree]
    split_ifs at h with h0
    · simp only [Option.some.injEq] at h
      subst h
      simp [mapFind, h0]
    · split_ifs with h1
      · simp [mapFind, h0, h]
      · simp [mapFind, h0, ih h]

theorem scanFree_find_some {l : List (Nat × Bool)} {q : Nat} {f : Bool}
    (h : mapFind q l = some f) : ∃ f', mapFind q (SubPool.scanFree l).2 = some f' := by
  induction l with
  | nil => simp [mapFind] at h
  | cons hd tl ih =>
    obtain ⟨a, g⟩ := hd
    simp only [mapFind] at h
    simp only [SubPool.scanFree]
    split_ifs at h with h0
    · split_ifs with h1
      · exact ⟨false, by simp [mapFind, h0]⟩
      · exact ⟨g, by simp [mapFind, h0]⟩
    · split_ifs with h1
      · exact ⟨f, by simp [mapFind, h0, h]⟩
      · obtain ⟨f', hf'⟩ := ih h
        exact ⟨f', by simp [mapFind, h0, hf']⟩

theorem scanFree_find_other {l : List (Nat × Bool)} {q : Nat}
    (h : q ≠ (SubPool.scanFree l).1) :
    mapFind q (SubPool.scanFree l).2 = mapFind q l := by
  induction l with
  | nil => simp [SubPool.scanFree]
  | cons hd tl ih =>
    obtain ⟨a, g⟩ := hd
    simp only [SubPool.scanFree] at h ⊢
    split_ifs at h ⊢ with h1
    · simp only at h
      simp [mapFind, h]
    · simp only at h
      simp only [mapFind]
      split_ifs with h2
      · rfl
      · exact ih h

theorem scanFree_nofree {l : List (Nat × Bool)} (h : ∀ e ∈ l, e.2 = false) :
    SubPool.scanFree l = (0, l) := by
  induction l with
  | nil => simp [SubPool.scanFree]
  | cons hd tl ih =>
    obtain ⟨a, f⟩ := hd
    have hf : f = false := h (a, f) (List.mem_cons_self _ _)
    subst hf
    have := ih (fun e he => h e (List.mem_cons_of_mem _ he))
    simp [SubPool.scanFree, this]

theorem scanFree_zero {l : List (Nat × Bool)} (hpos : ∀ e ∈ l, 0 < e.1)
    (h : (SubPool.scanFree l).1 = 0) : ∀ e ∈ l, e.2 = false := by
  induction l with
  | nil => simp
  | cons hd tl ih =>
    obtain ⟨a, f⟩ := hd
    simp only [SubPool.scanFree] at h
    have ha : 0 < a := hpos (a, f) (List.mem_cons_self _ _)
    split_ifs at h with h1
    · simp only at h; omega
    · intro e he
      rcases List.mem_cons.mp he with h2 | h2
      · subst h2; simpa using h1
      · exact ih (fun e he => hpos e (List.mem_cons_of_mem _ he)) h e h2

theorem scanFree_found {l : List (Nat × Bool)} (h : ∃ e ∈ l, e.2 = true) :
    ((SubPool.scanFree l).1, true) ∈ l ∧
      mapFind (SubPool.scanFree l).1 (SubPool.scanFree l).2 = some false := by
  induction l with
  | nil => simp at h
  | cons hd tl ih =>
    obtain ⟨a, f⟩ := hd
    simp only [SubPool.scanFree]
    split_ifs with h1
    · subst h1; simp [mapFind]
    · have hf : f = false := by simpa using h1
      subst hf
      have h' : ∃ e ∈ tl, e.2 = true := by
        obtain ⟨e, he, het⟩ := h
        rcases List.mem_cons.mp he with h2 | h2
        · subst h2; simp at het
        · exact ⟨e, h2, het⟩
      obtain ⟨i1, i2⟩ := ih h'
      refine ⟨List.mem_cons_of_mem _ i1, ?_⟩
      simp only [mapFind]
      split_ifs with h3
      · rfl
      · exact i2

theorem scanFree_cases (l : List (Nat × Bool)) :
    ((∀ e ∈ l, e.2 = false) ∧ SubPool.scanFree l = (0, l)) ∨
    (((SubPool.scanFree l).1, true) ∈ l ∧
      mapFind (SubPool.scanFree l).1 (SubPool.scanFree l).2 = some false) := by
  by_cases h : ∃ e ∈ l, e.2 = true
  · exact Or.inr (scanFree_found h)
  · left
    have h' : ∀ e ∈ l, e.2 = false := by
      intro e he
      cases hb : e.2 with
      | false => rfl
      | true => exact absurd ⟨e, he, hb⟩ h
    exact ⟨h', scanFree_nofree h'⟩

/-! ## The invariant along the calls -/

theorem inv_chunk_pos {st : MemPool} (hI : Inv st) {k : Nat} {sp : SubPool}
    (h : mapFind k st.sub_pools = some sp) : ∀ e ∈ sp.chunks, 0 < e.1 := by
  intro e he
  have := ((hI.pool_inv k sp h).bounds e.1 e.2 he).1
  have := hI.buf_pos
  omega

theorem poolInv_scanFree {buf cursor al : Nat} {reg : List (Nat × Nat)} {k : Nat}
    {sp : SubPool} (h : PoolInv buf cursor al reg k sp) :
    PoolInv buf cursor al reg k (sp.Alloc).2 := by
  refine ⟨h.size_eq, scanFree_sorted h.sorted, ?_, ?_, ?_⟩
  · intro a f hm
    obtain ⟨f', hf'⟩ := scanFree_mem_key hm
    exact h.bounds a f' hf'
  · intro a f hm
    obtain ⟨f', hf'⟩ := scanFree_mem_key hm
    exact h.aligned a f' hf'
  · intro a f hm
    obtain ⟨f', hf'⟩ := scanFree_mem_key hm
    exact h.registered a f' hf'

/-- Replacing the pool under an existing key by one that satisfies the pool
invariant and keeps every chunk keeps the invariant. -/
theorem inv_update_pool {st : MemPool} (hI : Inv st) {c : Nat} {sp sp' : SubPool}
    (hsp : mapFind c st.sub_pools = some sp)
    (hP : PoolInv st.buffer st.read_buffer st.alignment st.subpool_register c sp')
    (hkeep : ∀ a f, mapFind a sp.chunks = some f → ∃ f', mapFind a sp'.chunks = some f') :
    Inv { st with sub_pools := mapAssign c sp' st.sub_pools } := by
  refine ⟨keysSorted_mapAssign c sp' hI.pools_sorted, hI.sizes_sorted, ?_, ?_, ?_,
    hI.balance, hI.cursor_ge, hI.max_lt, hI.buf_pos⟩
  · intro k hk
    simp only [mapFind_mapAssign]
    split_ifs with h
    · exact ⟨sp', rfl⟩
    · exact hI.pools_exist k hk
  · intro k sp2 h2
    simp only [mapFind_mapAssign] at h2
    split_ifs at h2 with h
    · simp only [Option.some.injEq] at h2
      subst h2; subst h
      exact hP
    · exact hI.pool_inv k sp2 h2
  · intro p k hk
    obtain ⟨hmem, sp2, f, h2, h3⟩ := hI.reg_ok p k hk
    refine ⟨hmem, ?_⟩
    simp only [mapFind_mapAssign]
    split_ifs with h
    · subst h
      rw [hsp] at h2
      simp only [Option.some.injEq] at h2
      subst h2
      obtain ⟨f', hf'⟩ := hkeep p f h3
      exact ⟨sp', f', rfl, hf'⟩
    · exact ⟨sp2, f, h2, h3⟩

/-- Replacing a pool by one in which every chunk that was marked used is still
marked used keeps the live addresses registered and used. -/
theorem liveOK_update_pool {st : MemPool} {live : List Nat} (hL : LiveOK st live)
    {c : Nat} {sp sp' : SubPool} (hsp : mapFind c st.sub_pools = some sp)
    (hkeep : ∀ a, mapFind a sp.chunks = some false → mapFind a sp'.chunks = some false) :
    LiveOK { st with sub_pools := mapAssign c sp' st.sub_pools } live := by
  intro p hp
  obtain ⟨k, sp2, h1, h2, h3⟩ := hL p hp
  by_cases h : k = c
  · subst h
    rw [hsp] at h2
    simp only [Option.some.injEq] at h2
    subst h2
    exact ⟨k, sp', h1, mapFind_mapAssign_self _ _ _, hkeep p h3⟩
  · exact ⟨k, sp2, h1, by simpa [mapFind_mapAssign, h] using h2, h3⟩

/-- What the call `sub_pools[chunk_size]->Alloc()` does to the allocator. -/
theorem poolAlloc_spec {st st1 : MemPool} {c p : Nat} (hI : Inv st)
    (h : st.poolAlloc c = some (p, st1)) :
    Inv st1 ∧ Frame st st1 ∧ (∀ live, LiveOK st live → LiveOK st1 live) ∧
    (p = 0 → st1 = st ∧ ∃ sp, mapFind c st.sub_pools = some sp ∧
      ∀ e ∈ sp.chunks, e.2 = false) ∧
    (p ≠ 0 → ∃ sp1, mapFind c st1.sub_pools = some sp1 ∧
      mapFind p sp1.chunks = some false) := by
  unfold MemPool.poolAlloc at h
  cases hsp : mapFind c st.sub_pools with
  | none => simp [hsp] at h
  | some sp =>
    simp only [hsp, Option.some.injEq, Prod.mk.injEq] at h
    obtain ⟨hp, hst⟩ := h
    subst hst
    refine ⟨?_, ?_, ?_, ?_, ?_⟩
    · exact inv_update_pool hI hsp (poolInv_scanFree (hI.pool_inv c sp hsp))
        (fun a f hf => scanFree_find_some hf)
    · rfl
    · intro live hL
      exact liveOK_update_pool hL hsp (fun a ha => scanFree_find_false ha)
    · intro hp0
      have hz : (SubPool.scanFree sp.chunks).1 = 0 := by
        rw [← hp0, ← hp]; rfl
      have hno := scanFree_zero (inv_chunk_pos hI hsp) hz
      refine ⟨?_, sp, rfl, hno⟩
      have : (sp.Alloc).2 = sp := by
        simp [SubPool.Alloc, scanFree_nofree hno]
      rw [this, mapAssign_of_find hI.pools_sorted hsp]
    · intro hp0
      refine ⟨(sp.Alloc).2, mapFind_mapAssign_self _ _ _, ?_⟩
      rcases scanFree_cases sp.chunks with ⟨_, h2⟩ | ⟨_, h2⟩
      · exfalso; apply hp0; rw [← hp]; simp [SubPool.Alloc, h2]
      · rw [← hp]; exact h2

theorem std_align_some {al c ptr space res space' : Nat}
    (h : std_align al c ptr space = some (res, space')) :
    res = ptr + alignOffset al ptr ∧ space' = space - alignOffset al ptr ∧
      alignOffset al ptr ≤ space ∧ c ≤ space - alignOffset al ptr := by
  unfold std_align at h
  split_ifs at h with h1
  simp only [Option.some.injEq, Prod.mk.injEq] at h
  obtain ⟨h2, h3⟩ := h
  refine ⟨h2.symm, h3.symm, ?_, ?_⟩ <;> omega

/-- For a power of two, the address `std::align` moves to is a multiple of the
boundary. -/
theorem alignOffset_pow2 (n ptr : Nat) : (ptr + alignOffset (2 ^ n) ptr) % 2 ^ n = 0 := by
  unfold alignOffset
  rw [Nat.and_pow_two_sub_one_eq_mod]
  have hpos : 0 < 2 ^ n := Nat.two_pow_pos n
  generalize 2 ^ n = m at hpos
  split_ifs with h
  · simpa using h
  · have hlt : ptr % m < m := Nat.mod_lt _ hpos
    have hdm := Nat.div_add_mod ptr m
    have : ptr + (m - ptr % m) = m * (ptr / m + 1) := by
      rw [Nat.mul_add, Nat.mul_one]; omega
    rw [this, Nat.mul_mod_right]

theorem sub32_eq {x c : Nat} (hx : x < UINT32) (hc : c ≤ x) :
    (x + UINT32 - c) % UINT32 = x - c := by
  have : x + UINT32 - c = (x - c) + UINT32 := by omega
  rw [this, Nat.add_mod_right, Nat.mod_eq_of_lt (by omega)]

theorem inv_avail_lt {st : MemPool} (hI : Inv st) : st.available_size < UINT32 := by
  have := hI.balance
  have := hI.cursor_ge
  have := hI.max_lt
  omega

theorem mem_mapInsert_self {β : Type} {k : Nat} {v : β} {m : List (Nat × β)}
    (h : mapFind k m = none) : (k, v) ∈ mapInsert k v m :=
  mapFind_some_mem (mapFind_mapInsert_of_none k v m h)

/-- What the carving branch of `MemPool::Alloc` does, entered as the source
enters it: the pool of `c` has no free chunk. -/
theorem carve_spec {st st' : MemPool} {c p : Nat} (hI : Inv st)
    (hc : c ∈ st.chunk_sizes) {sp : SubPool} (hsp : mapFind c st.sub_pools = some sp)
    (hno : ∀ e ∈ sp.chunks, e.2 = false) (h : st.carve c = some (p, st')) :
    Inv st' ∧ (∀ live, LiveOK st live → LiveOK st' live) ∧ (p = 0 → Frame st st') ∧
      (p ≠ 0 → LiveOK st' [p]) := by
  have hP := hI.pool_inv c sp hsp
  unfold MemPool.carve at h
  split_ifs at h with hav
  swap
  · simp only [Option.some.injEq, Prod.mk.injEq] at h
    obtain ⟨rfl, rfl⟩ := h
    exact ⟨hI, fun _ hL => hL, fun _ => rfl, fun hp => absurd rfl hp⟩
  cases hal : std_align st.alignment c st.read_buffer st.available_size with
  | none =>
    simp only [hal, Option.some.injEq, Prod.mk.injEq] at h
    obtain ⟨rfl, rfl⟩ := h
    exact ⟨hI, fun _ hL => hL, fun _ => rfl, fun hp => absurd rfl hp⟩
  | some r =>
    obtain ⟨res, space⟩ := r
    obtain ⟨hres, hspace, hoff, hfit⟩ := std_align_some hal
    simp only [hal, hsp] at h
    have hbal := hI.balance
    have hge := hI.cursor_ge
    have hmax := hI.max_lt
    have hbuf := hI.buf_pos
    have hsub : (space + UINT32 - c) % UINT32 = space - c :=
      sub32_eq (by omega) (by omega)
    cases hkey : mapFind res sp.chunks with
    | some f =>
      have hins : mapInsert res true sp.chunks = sp.chunks :=
        mapInsert_of_find hP.sorted hkey
      have hA1 : (((sp.AddNewChunk res).2).Alloc).1 = 0 := by
        simp [SubPool.AddNewChunk, SubPool.Alloc, hins, scanFree_nofree hno]
      have hA2 : (((sp.AddNewChunk res).2).Alloc).2 =
          { sp with chunk_count := (sp.chunk_count + 1) % UINT32 } := by
        simp [SubPool.AddNewChunk, SubPool.Alloc, hins, scanFree_nofree hno]
      have hb := hP.bounds res f (mapFind_some_mem hkey)
      have hc0 : c = 0 := by omega
      have hr : res + c = st.read_buffer := by omega
      have hs : space - c = st.available_size := by omega
      simp only [hA1, hA2, ne_eq, not_true_eq_false, if_false, hsub, hr, hs,
        Option.some.injEq, Prod.mk.injEq] at h
      obtain ⟨rfl, rfl⟩ := h
      refine ⟨?_, ?_, fun _ => rfl, fun hp => absurd rfl hp⟩
      · exact inv_update_pool hI hsp
          ⟨hP.size_eq, hP.sorted, hP.bounds, hP.aligned, hP.registered⟩
          (fun a f hf => ⟨f, hf⟩)
      · intro live hL
        exact liveOK_update_pool hL hsp (fun a ha => ha)
    | none =>
      have hmem : (res, true) ∈ mapInsert res true sp.chunks := mem_mapInsert_self hkey
      obtain ⟨hf1, hf2⟩ := scanFree_found ⟨(res, true), hmem, rfl⟩
      have hp2 : (SubPool.scanFree (mapInsert res true sp.chunks)).1 = res := by
        rcases mem_mapInsert hf1 with h1 | h1
        · exact (Prod.mk.inj h1).1
        · exact absurd (hno _ h1) (by simp)
      rw [hp2] at hf2
      have hB1 : (((sp.AddNewChunk res).2).Alloc).1 = res := by
        simp [SubPool.AddNewChunk, SubPool.Alloc, hp2]
      have hres0 : res ≠ 0 := by omega
      simp only [hB1, ne_eq, hres0, not_false_eq_true, if_true, hsub,
        Option.some.injEq, Prod.mk.injEq] at h
      obtain ⟨rfl, rfl⟩ := h
      have hchunks : (((sp.AddNewChunk res).2).Alloc).2.chunks =
          (SubPool.scanFree (mapInsert res true sp.chunks)).2 := by
        simp [SubPool.AddNewChunk, SubPool.Alloc]
      have hsize : (((sp.AddNewChunk res).2).Alloc).2.chunk_size = sp.chunk_size := by
        simp [SubPool.AddNewChunk, SubPool.Alloc]
      have hnew : mapFind res (((sp.AddNewChunk res).2).Alloc).2.chunks = some false := by
        rw [hchunks]; exact hf2
      have hold : ∀ a g, a ≠ res → mapFind a sp.chunks = some g →
          ∃ g', mapFind a (((sp.AddNewChunk res).2).Alloc).2.chunks = some g' := by
        intro a g hne hg
        rw [hchunks]
        exact scanFree_find_some (by rw [mapFind_mapInsert_ne _ _ hne]; exact hg)
      have holdf : ∀ a, a ≠ res → mapFind a sp.chunks = some false →
          mapFind a (((sp.AddNewChunk res).2).Alloc).2.chunks = some false := by
        intro a hne hg
        rw [hchunks]
        exact scanFree_find_false (by rw [mapFind_mapInsert_ne _ _ hne]; exact hg)
      have hlive : ∀ live, LiveOK st live → LiveOK
          { st with
            sub_pools := mapAssign c (((sp.AddNewChunk res).2).Alloc).2 st.sub_pools,
            read_buffer := res + c, available_size := space - c,
            subpool_register := mapAssign res c st.subpool_register } live := by
        intro live hL q hq
        obtain ⟨k, sp2, h1, h2, h3⟩ := hL q hq
        by_cases hqr : q = res
        · subst hqr
          exact ⟨c, _, mapFind_mapAssign_self _ _ _, mapFind_mapAssign_self _ _ _, hnew⟩
        · by_cases hk : k = c
          · subst hk
            rw [hsp] at h2
            simp only [Option.some.injEq] at h2
            subst h2
            exact ⟨k, _, by simpa [mapFind_mapAssign, hqr] using h1,
              mapFind_mapAssign_self _ _ _, holdf q hqr h3⟩
          · exact ⟨k, sp2, by simpa [mapFind_mapAssign, hqr] using h1,
              by simpa [mapFind_mapAssign, hk] using h2, h3⟩
      refine ⟨?_, hlive, fun hp => absurd hp hres0, ?_⟩
      · refine ⟨keysSorted_mapAssign _ _ hI.pools_sorted, hI.sizes_sorted, ?_, ?_, ?_,
          ?_, ?_, hI.max_lt, hI.buf_pos⟩
        · intro k hk
          simp only [mapFind_mapAssign]
          split_ifs with h
          · exact ⟨_, rfl⟩
          · exact hI.pools_exist k hk
        · intro k sp2 h2
          simp only [mapFind_mapAssign] at h2
          split_ifs at h2 with hk
          · simp only [Option.some.injEq] at h2
            subst h2; subst hk
            refine ⟨by rw [hsize]; exact hP.size_eq, ?_, ?_, ?_, ?_⟩
            · rw [hchunks]
              exact scanFree_sorted (keysSorted_mapInsert _ _ hP.sorted)
            · intro a g hm
              rw [hchunks] at hm
              obtain ⟨g', hg'⟩ := scanFree_mem_key hm
              rcases mem_mapInsert hg' with h1 | h1
              · have := (Prod.mk.inj h1).1
                simp only at this ⊢
                omega
              · have := hP.bounds a g' h1
                simp only at this ⊢
                omega
            · intro a g hm n hn
              rw [hchunks] at hm
              obtain ⟨g', hg'⟩ := scanFree_mem_key hm
              rcases mem_mapInsert hg' with h1 | h1
              · have ha : a = res := (Prod.mk.inj h1).1
                simp only at hn ⊢
                rw [ha, hres, hn]
                exact alignOffset_pow2 n _
              · exact hP.aligned a g' h1 n hn
            · intro a g hm
              rw [hchunks] at hm
              obtain ⟨g', hg'⟩ := scanFree_mem_key hm
              simp only [mapFind_mapAssign]
              split_ifs with har
              · exact ⟨k, rfl, fun _ => rfl⟩
              · rcases mem_mapInsert hg' with h1 | h1
                · exact absurd (Prod.mk.inj h1).1 har
                · exact hP.registered a g' h1
          · have hQ := hI.pool_inv k sp2 h2
            refine ⟨hQ.size_eq, hQ.sorted, ?_, hQ.aligned, ?_⟩
            · intro a g hm
              have := hQ.bounds a g hm
              simp only at this ⊢
              omega
            · intro a g hm
              simp only [mapFind_mapAssign]
              split_ifs with har
              · have := hQ.bounds a g hm
                exact ⟨c, rfl, fun hk0 => by omega⟩
              · exact hQ.registered a g hm
        · intro q k hk
          simp only [mapFind_mapAssign] at hk ⊢
          split_ifs at hk with hqr
          · simp only [Option.some.injEq] at hk
            subst hk; subst hqr
            exact ⟨hc, _, false, by simp, hnew⟩
          · obtain ⟨hmem2, sp2, g, h2, h3⟩ := hI.reg_ok q k hk
            refine ⟨hmem2, ?_⟩
            split_ifs with hkc
            · subst hkc
              rw [hsp] at h2
              simp only [Option.some.injEq] at h2
              subst h2
              obtain ⟨g', hg'⟩ := hold q g hqr h3
              exact ⟨_, g', rfl, hg'⟩
            · exact ⟨sp2, g, h2, h3⟩
        · show res + c + (space - c) = st.buffer + st.max_memory
          omega
        · show st.buffer ≤ res + c
          omega
      · intro _
        intro q hq
        simp only [List.mem_singleton] at hq
        subst hq
        exact ⟨c, _, mapFind_mapAssign_self _ _ _, mapFind_mapAssign_self _ _ _, hnew⟩

theorem frame_refl (st : MemPool) : Frame st st := rfl

theorem frame_trans {a b c : MemPool} (h1 : Frame a b) (h2 : Frame b c) : Frame a c := by
  unfold Frame at *
  rw [h2, h1]

/-- What the loop of `MemPool::Alloc` does. The result is the pointer the loop
was entered with (no chunk size fits), or comes out of the carving branch, or
is a chunk that the pool of the largest fitting chunk size marked used. -/
theorem allocLoop_spec (size : Nat) : ∀ (cs : List Nat) (ptr : Nat) (st : MemPool)
    (p : Nat) (st' : MemPool), Inv st → cs.Pairwise (fun a b => a < b) →
    (∀ c ∈ cs, c ∈ st.chunk_sizes) →
    MemPool.allocLoop size cs ptr st = some (p, st') →
    Inv st' ∧ (∀ live, LiveOK st live → LiveOK st' live) ∧ (p = 0 → Frame st st') ∧
    ((p = ptr ∧ st' = st ∧ ∀ c ∈ cs, ¬ size ≤ c) ∨
     ((∃ c ∈ cs, size ≤ c) ∧ (p = 0 ∨ LiveOK st' [p])) ∨
     (p ≠ 0 ∧ Frame st st' ∧ ∃ c ∈ cs, size ≤ c ∧ (∀ c' ∈ cs, size ≤ c' → c' ≤ c) ∧
        ∃ sp, mapFind c st'.sub_pools = some sp ∧ mapFind p sp.chunks = some false)) := by
  intro cs
  induction cs with
  | nil =>
    intro ptr st p st' hI _ _ h
    simp only [MemPool.allocLoop, Option.some.injEq, Prod.mk.injEq] at h
    obtain ⟨rfl, rfl⟩ := h
    exact ⟨hI, fun _ hL => hL, fun _ => rfl, Or.inl ⟨rfl, rfl, by simp⟩⟩
  | cons hd rest ih =>
    intro ptr st p st' hI hsorted hsub h
    have hs' := List.pairwise_cons.mp hsorted
    simp only [MemPool.allocLoop] at h
    split_ifs at h with hfit
    · cases hpa : st.poolAlloc hd with
      | none => simp [hpa] at h
      | some r =>
        obtain ⟨p1, st1⟩ := r
        simp only [hpa] at h
        obtain ⟨hI1, hF1, hL1, hz, hnz⟩ := poolAlloc_spec hI hpa
        have hcs1 : st1.chunk_sizes = st.chunk_sizes := by rw [hF1]
        split_ifs at h with hp1
        · obtain ⟨hst, sp, hsp, hno⟩ := hz hp1
          subst hst
          obtain ⟨hI', hL', hF', hN'⟩ :=
            carve_spec hI (hsub hd (List.mem_cons_self _ _)) hsp hno h
          refine ⟨hI', hL', hF', Or.inr (Or.inl ⟨⟨hd, List.mem_cons_self _ _, hfit⟩, ?_⟩)⟩
          by_cases hp : p = 0
          · exact Or.inl hp
          · exact Or.inr (hN' hp)
        · obtain ⟨hI', hL', hF', hres⟩ := ih p1 st1 p st' hI1 hs'.2
            (fun c hc => by rw [hcs1]; exact hsub c (List.mem_cons_of_mem _ hc)) h
          refine ⟨hI', fun live hL => hL' live (hL1 live hL),
            fun hp => frame_trans hF1 (hF' hp), ?_⟩
          rcases hres with ⟨rfl, rfl, hnone⟩ | ⟨⟨c, hc, hfc⟩, hB⟩ |
            ⟨hp0, hFr, c, hc, hfc, hmax, hsp⟩
          · refine Or.inr (Or.inr ⟨hp1, hF1, hd, List.mem_cons_self _ _, hfit, ?_, hnz hp1⟩)
            intro c' hc' hfc'
            rcases List.mem_cons.mp hc' with h1 | h1
            · omega
            · exact absurd hfc' (hnone c' h1)
          · exact Or.inr (Or.inl ⟨⟨c, List.mem_cons_of_mem _ hc, hfc⟩, hB⟩)
          · refine Or.inr (Or.inr
              ⟨hp0, frame_trans hF1 hFr, c, List.mem_cons_of_mem _ hc, hfc, ?_, hsp⟩)
            intro c' hc' hfc'
            rcases List.mem_cons.mp hc' with h1 | h1
            · have := hs'.1 c hc
              omega
            · exact hmax c' h1 hfc'
    · obtain ⟨hI', hL', hF', hres⟩ := ih ptr st p st' hI hs'.2
        (fun c hc => hsub c (List.mem_cons_of_mem _ hc)) h
      refine ⟨hI', hL', hF', ?_⟩
      rcases hres with ⟨rfl, rfl, hnone⟩ | ⟨⟨c, hc, hfc⟩, hB⟩ |
        ⟨hp0, hFr, c, hc, hfc, hmax, hsp⟩
      · refine Or.inl ⟨rfl, rfl, ?_⟩
        intro c hc
        rcases List.mem_cons.mp hc with h1 | h1
        · subst h1; exact hfit
        · exact hnone c h1
      · exact Or.inr (Or.inl ⟨⟨c, List.mem_cons_of_mem _ hc, hfc⟩, hB⟩)
      · refine Or.inr (Or.inr ⟨hp0, hFr, c, List.mem_cons_of_mem _ hc, hfc, ?_, hsp⟩)
        intro c' hc' hfc'
        rcases List.mem_cons.mp hc' with h1 | h1
        · subst h1; exact absurd hfc' hfit
        · exact hmax c' h1 hfc'

/-- A call of `MemPool::Alloc` keeps the invariant, keeps the live addresses
registered and used, returns null or a registered address that is marked used,
and changes nothing but the pools when it returns null. -/
theorem Alloc_spec {st st' : MemPool} {size p : Nat} (hI : Inv st)
    (h : st.Alloc size = some (p, st')) :
    Inv st' ∧ (∀ live, LiveOK st live → LiveOK st' (if p = 0 then live else p :: live)) ∧
      (p = 0 → Frame st st') := by
  obtain ⟨hI', hL', hF', hres⟩ :=
    allocLoop_spec size st.chunk_sizes 0 st p st' hI hI.sizes_sorted (fun c hc => hc) h
  refine ⟨hI', ?_, hF'⟩
  intro live hL
  split_ifs with hp
  · exact hL' live hL
  · have hone : LiveOK st' [p] := by
      rcases hres with ⟨h0, _, _⟩ | ⟨_, hB⟩ | ⟨_, hFr, c, hc, hfc, hmax, sp, hsp, hflag⟩
      · exact absurd h0 hp
      · rcases hB with h0 | h1
        · exact absurd h0 hp
        · exact h1
      · obtain ⟨k', hk', hpos⟩ :=
          (hI'.pool_inv c sp hsp).registered p false (mapFind_some_mem hflag)
        have hk : k' = c := by
          by_cases hc0 : 0 < c
          · exact hpos hc0
          · have hmem := (hI'.reg_ok p k' hk').1
            have hcs : st'.chunk_sizes = st.chunk_sizes := by rw [hFr]
            rw [hcs] at hmem
            have := hmax k' hmem (by omega)
            omega
        subst hk
        intro q hq
        simp only [List.mem_singleton] at hq
        subst hq
        exact ⟨k', sp, hk', hsp, hflag⟩
    intro q hq
    rcases List.mem_cons.mp hq with h1 | h1
    · exact hone q (by simp [h1])
    · exact hL' live hL q h1

/-- What `MemPool::Free` does: it keeps the invariant, a failed call changes
nothing, and a successful one takes the address out of the live ones. -/
theorem Free_spec {st st' : MemPool} {ptr : Nat} {b : Bool} (hI : Inv st)
    (h : st.Free ptr = some (b, st')) :
    Inv st' ∧ Frame st st' ∧ (b = false → st' = st) ∧
      (∀ live, LiveOK st live →
        LiveOK st' (if b then live.filter (fun q => q ≠ ptr) else live)) := by
  unfold MemPool.Free at h
  split_ifs at h with h0
  · simp only [Option.some.injEq, Prod.mk.injEq] at h
    obtain ⟨rfl, rfl⟩ := h
    exact ⟨hI, rfl, fun _ => rfl, fun live hL => by simpa using hL⟩
  cases hreg : mapFind ptr st.subpool_register with
  | none =>
    simp only [hreg, Option.some.injEq, Prod.mk.injEq] at h
    obtain ⟨rfl, rfl⟩ := h
    exact ⟨hI, rfl, fun _ => rfl, fun live hL => by simpa using hL⟩
  | some k =>
    simp only [hreg] at h
    cases hsp : mapFind k st.sub_pools with
    | none => simp [hsp] at h
    | some sp =>
      simp only [hsp, Option.some.injEq, Prod.mk.injEq] at h
      obtain ⟨hb, hst⟩ := h
      have hP := hI.pool_inv k sp hsp
      have hsame : ∀ {x : Bool}, sp.Free ptr = (x, sp) →
          b = x ∧ st' = st := by
        intro x hx
        rw [hx] at hb hst
        refine ⟨hb.symm, ?_⟩
        rw [← hst]
        simp only [mapAssign_of_find hI.pools_sorted hsp]
      cases hfl : mapFind ptr sp.chunks with
      | none =>
        obtain ⟨rfl, rfl⟩ := hsame (x := false) (by simp [SubPool.Free, hfl])
        exact ⟨hI, rfl, fun _ => rfl, fun live hL => by simpa using hL⟩
      | some f =>
        cases f with
        | true =>
          obtain ⟨rfl, rfl⟩ := hsame (x := false) (by simp [SubPool.Free, hfl])
          exact ⟨hI, rfl, fun _ => rfl, fun live hL => by simpa using hL⟩
        | false =>
          have hfree : sp.Free ptr =
              (true, { sp with chunks := mapAssign ptr true sp.chunks }) := by
            simp [SubPool.Free, hfl]
          rw [hfree] at hb hst
          simp only at hb hst
          subst hb; subst hst
          refine ⟨?_, rfl, fun hb => by simp at hb, ?_⟩
          · refine inv_update_pool hI hsp ⟨hP.size_eq, keysSorted_mapAssign _ _ hP.sorted,
              ?_, ?_, ?_⟩ ?_
            · intro a f hm
              rcases mem_mapAssign hm with h1 | h1
              · rw [(Prod.mk.inj h1).1]
                exact hP.bounds ptr false (mapFind_some_mem hfl)
              · exact hP.bounds a f h1
            · intro a f hm
              rcases mem_mapAssign hm with h1 | h1
              · rw [(Prod.mk.inj h1).1]
                exact hP.aligned ptr false (mapFind_some_mem hfl)
              · exact hP.aligned a f h1
            · intro a f hm
              rcases mem_mapAssign hm with h1 | h1
              · rw [(Prod.mk.inj h1).1]
                exact hP.registered ptr false (mapFind_some_mem hfl)
              · exact hP.registered a f h1
            · intro a f hf
              simp only [mapFind_mapAssign]
              split_ifs
              · exact ⟨true, rfl⟩
              · exact ⟨f, hf⟩
          · intro live hL
            simp only [if_true]
            intro q hq
            have hq' := List.mem_filter.mp hq
            have hne : q ≠ ptr := by simpa using hq'.2
            obtain ⟨k2, sp2, h1, h2, h3⟩ := hL q hq'.1
            by_cases hk : k2 = k
            · subst hk
              rw [hsp] at h2
              simp only [Option.some.injEq] at h2
              subst h2
              exact ⟨k2, _, h1, mapFind_mapAssign_self _ _ _,
                by simpa [mapFind_mapAssign, hne] using h3⟩
            · exact ⟨k2, sp2, h1, by simpa [mapFind_mapAssign, hk] using h2, h3⟩

/-! ## Initialize -/

theorem mem_unique {x : Nat} : ∀ {l : List Nat}, x ∈ unique l → x ∈ l
  | [], h => by simp [unique] at h
  | [a], h => by simpa [unique] using h
  | a :: b :: rest, h => by
    simp only [unique] at h
    split_ifs at h with hab
    · exact List.mem_cons_of_mem _ (mem_unique h)
    · rcases List.mem_cons.mp h with h1 | h1
      · subst h1; simp
      · exact List.mem_cons_of_mem _ (mem_unique h1)

theorem unique_pairwise : ∀ {l : List Nat}, l.Pairwise (fun a b => a ≤ b) →
    (unique l).Pairwise (fun a b => a < b)
  | [], _ => by simp [unique]
  | [a], _ => by simp [unique]
  | a :: b :: rest, h => by
    have h1 := List.pairwise_cons.mp h
    have h2 := List.pairwise_cons.mp h1.2
    simp only [unique]
    split_ifs with hab
    · exact unique_pairwise h1.2
    · refine List.pairwise_cons.mpr ⟨?_, unique_pairwise h1.2⟩
      intro x hx
      have hab' := h1.1 b (List.mem_cons_self _ _)
      rcases List.mem_cons.mp (mem_unique hx) with h3 | h3
      · omega
      · have := h2.1 x h3
        omega

theorem sizes_sorted_unique (l : List Nat) :
    (unique (l.insertionSort (fun a b => a ≤ b))).Pairwise (fun a b => a < b) :=
  unique_pairwise (List.sorted_insertionSort (fun a b => a ≤ b) l)

theorem mapFind_mapInsert_self {β : Type} (k : Nat) (v : β) (m : List (Nat × β)) :
    ∃ v', mapFind k (mapInsert k v m) = some v' := by
  induction m with
  | nil => exact ⟨v, by simp [mapInsert, mapFind]⟩
  | cons hd tl ih =>
    obtain ⟨k2, v2⟩ := hd
    simp only [mapInsert]
    split_ifs with h1 h2
    · exact ⟨v, by simp [mapFind]⟩
    · exact ⟨v2, by simp [mapFind, h2]⟩
    · obtain ⟨v', hv'⟩ := ih
      exact ⟨v', by simp [mapFind, h2, hv']⟩

/-- The pools that the second loop of `MemPool::Initialize` builds. -/
theorem initPools_spec : ∀ (cs : List Nat) (m : List (Nat × SubPool)),
    KeysSorted m → (∀ e ∈ m, e.2 = SubPool.new e.1) →
    KeysSorted (cs.foldl (fun m c => mapInsert c (SubPool.new c) m) m) ∧
    (∀ e ∈ cs.foldl (fun m c => mapInsert c (SubPool.new c) m) m, e.2 = SubPool.new e.1) ∧
    (∀ c, (c ∈ cs ∨ ∃ sp, mapFind c m = some sp) →
      ∃ sp, mapFind c (cs.foldl (fun m c => mapInsert c (SubPool.new c) m) m) = some sp)
  | [], m, hs, hn => ⟨hs, hn, fun c hc => by simpa using hc⟩
  | c0 :: rest, m, hs, hn => by
    simp only [List.foldl_cons]
    obtain ⟨i1, i2, i3⟩ := initPools_spec rest (mapInsert c0 (SubPool.new c0) m)
      (keysSorted_mapInsert _ _ hs)
      (fun e he => by
        rcases mem_mapInsert he with h1 | h1
        · rw [h1]
        · exact hn e h1)
    refine ⟨i1, i2, ?_⟩
    intro c hc
    apply i3
    rcases hc with hc | ⟨sp, hsp⟩
    · rcases List.mem_cons.mp hc with h1 | h1
      · subst h1; exact Or.inr (mapFind_mapInsert_self _ _ _)
      · exact Or.inl h1
    · by_cases h : c = c0
      · subst h; exact Or.inr (mapFind_mapInsert_self _ _ _)
      · exact Or.inr ⟨sp, by rw [mapFind_mapInsert_ne _ _ h]; exact hsp⟩

/-- A successful `MemPool::Initialize` on a fresh allocator establishes the
invariant. -/
theorem Initialize_inv {p_max_memory p_alignment buf : Nat} {sizes : List Nat}
    {st : MemPool} (hm : p_max_memory < UINT32) (hb : 0 < buf)
    (h : (MemPool.new p_max_memory p_alignment buf).Initialize sizes = (true, st)) :
    Inv st := by
  unfold MemPool.Initialize at h
  simp only at h
  split at h
  · simp at h
  · split_ifs at h with h1
    · simp at h
    simp only [Prod.mk.injEq, true_and] at h
    subst h
    obtain ⟨i1, i2, i3⟩ := initPools_spec
      (unique (sizes.insertionSort (fun a b => a ≤ b))) []
      (by simp [KeysSorted]) (by simp)
    refine ⟨i1, sizes_sorted_unique sizes, fun c hc => i3 c (Or.inl hc), ?_, ?_, rfl,
      Nat.le_refl _, hm, hb⟩
    · intro k sp hk
      have := i2 _ (mapFind_some_mem hk)
      simp only at this
      subst this
      exact ⟨rfl, by simp [SubPool.new, KeysSorted], by simp [SubPool.new],
        by simp [SubPool.new], by simp [SubPool.new]⟩
    · intro p k hk
      simp [MemPool.new, mapFind] at hk

/-- Every reachable state satisfies the invariant, and every live address is
registered and marked used in the pool it is registered to. -/
theorem reachable_inv {st : MemPool} {live : List Nat} (h : Reachable st live) :
    Inv st ∧ LiveOK st live := by
  induction h with
  | init m al buf sizes st hm _ hb hinit =>
    exact ⟨Initialize_inv hm hb hinit, fun p hp => by simp at hp⟩
  | alloc st st' live size p _ ha ih =>
    obtain ⟨h1, h2, _⟩ := Alloc_spec ih.1 ha
    exact ⟨h1, h2 live ih.2⟩
  | free st st' live ptr b _ hf ih =>
    obtain ⟨h1, _, _, h2⟩ := Free_spec ih.1 hf
    exact ⟨h1, h2 live ih.2⟩

/-! ## The configuration is never changed -/

theorem poolAlloc_config {st st1 : MemPool} {c p : Nat}
    (h : st.poolAlloc c = some (p, st1)) : SameConfig st st1 := by
  unfold MemPool.poolAlloc at h
  split at h
  · simp at h
  · simp only [Option.some.injEq, Prod.mk.injEq] at h
    obtain ⟨_, rfl⟩ := h
    exact ⟨rfl, rfl, rfl, rfl⟩

theorem carve_config {st st' : MemPool} {c p : Nat}
    (h : st.carve c = some (p, st')) : SameConfig st st' := by
  unfold MemPool.carve at h
  split_ifs at h
  · split at h
    · split at h
      · simp at h
      · simp only at h
        split_ifs at h <;>
        · simp only [Option.some.injEq, Prod.mk.injEq] at h
          obtain ⟨_, rfl⟩ := h
          exact ⟨rfl, rfl, rfl, rfl⟩
    · simp only [Option.some.injEq, Prod.mk.injEq] at h
      obtain ⟨_, rfl⟩ := h
      exact ⟨rfl, rfl, rfl, rfl⟩
  · simp only [Option.some.injEq, Prod.mk.injEq] at h
    obtain ⟨_, rfl⟩ := h
    exact ⟨rfl, rfl, rfl, rfl⟩

theorem sameConfig_trans {a b c : MemPool} (h1 : SameConfig a b) (h2 : SameConfig b c) :
    SameConfig a c := by
  obtain ⟨a1, a2, a3, a4⟩ := h1
  obtain ⟨b1, b2, b3, b4⟩ := h2
  exact ⟨b1.trans a1, b2.trans a2, b3.trans a3, b4.trans a4⟩

theorem allocLoop_config (size : Nat) : ∀ (cs : List Nat) (ptr : Nat) (st : MemPool)
    (p : Nat) (st' : MemPool), MemPool.allocLoop size cs ptr st = some (p, st') →
    SameConfig st st'
  | [], ptr, st, p, st', h => by
    simp only [MemPool.allocLoop, Option.some.injEq, Prod.mk.injEq] at h
    obtain ⟨_, rfl⟩ := h
    exact ⟨rfl, rfl, rfl, rfl⟩
  | hd :: rest, ptr, st, p, st', h => by
    simp only [MemPool.allocLoop] at h
    split_ifs at h with hfit
    · cases hpa : st.poolAlloc hd with
      | none => simp [hpa] at h
      | some r =>
        obtain ⟨p1, st1⟩ := r
        simp only [hpa] at h
        split_ifs at h with hp1
        · exact sameConfig_trans (poolAlloc_config hpa) (carve_config h)
        · exact sameConfig_trans (poolAlloc_config hpa) (allocLoop_config size rest p1 st1 p st' h)
    · exact allocLoop_config size rest ptr st p st' h

theorem Alloc_config {st st' : MemPool} {size p : Nat}
    (h : st.Alloc size = some (p, st')) : SameConfig st st' :=
  allocLoop_config size st.chunk_sizes 0 st p st' h

/-! ## Alloc and Free always return in the reachable states -/

theorem carve_total {st : MemPool} {c : Nat} {sp : SubPool}
    (hsp : mapFind c st.sub_pools = some sp) : ∃ r, st.carve c = some r := by
  unfold MemPool.carve
  split_ifs
  · split
    · simp only [hsp]
      split_ifs <;> exact ⟨_, rfl⟩
    · exact ⟨_, rfl⟩
  · exact ⟨_, rfl⟩

theorem allocLoop_total (size : Nat) : ∀ (cs : List Nat) (ptr : Nat) (st : MemPool),
    Inv st → (∀ c ∈ cs, c ∈ st.chunk_sizes) →
    ∃ r, MemPool.allocLoop size cs ptr st = some r
  | [], ptr, st, _, _ => ⟨_, rfl⟩
  | hd :: rest, ptr, st, hI, hsub => by
    simp only [MemPool.allocLoop]
    split_ifs with hfit
    · obtain ⟨sp, hsp⟩ := hI.pools_exist hd (hsub hd (List.mem_cons_self _ _))
      have hpa : st.poolAlloc hd = some ((sp.Alloc).1,
          { st with sub_pools := mapAssign hd (sp.Alloc).2 st.sub_pools }) := by
        simp [MemPool.poolAlloc, hsp]
      obtain ⟨hI1, _, _, _, _⟩ := poolAlloc_spec hI hpa
      simp only [hpa]
      split_ifs with hp1
      · exact carve_total (mapFind_mapAssign_self _ _ _)
      · exact allocLoop_total size rest _ _ hI1
          (fun c hc => hsub c (List.mem_cons_of_mem _ hc))
    · exact allocLoop_total size rest ptr st hI
        (fun c hc => hsub c (List.mem_cons_of_mem _ hc))

/-- In every reachable state `MemPool::Alloc` returns. -/
theorem Alloc_total {st : MemPool} {live : List Nat} (hR : Reachable st live)
    (size : Nat) : ∃ p st', st.Alloc size = some (p, st') := by
  obtain ⟨r, hr⟩ := allocLoop_total size st.chunk_sizes 0 st (reachable_inv hR).1 (fun c hc => hc)
  exact ⟨r.1, r.2, hr⟩

/-- In every reachable state `MemPool::Free` returns. -/
theorem Free_total {st : MemPool} {live : List Nat} (hR : Reachable st live)
    (ptr : Nat) : ∃ b st', st.Free ptr = some (b, st') := by
  unfold MemPool.Free
  split_ifs
  · exact ⟨_, _, rfl⟩
  · cases hreg : mapFind ptr st.subpool_register with
    | none => exact ⟨_, _, rfl⟩
    | some k =>
      obtain ⟨_, sp, _, hsp, _⟩ := (reachable_inv hR).1.reg_ok ptr k hreg
      simp only [hsp]
      exact ⟨_, _, rfl⟩

/-! ## The result of Initialize -/

theorem mem_unique_of_mem {x : Nat} : ∀ {l : List Nat}, x ∈ l → x ∈ unique l
  | [], h => by simp at h
  | [a], h => by simpa [unique] using h
  | a :: b :: rest, h => by
    simp only [unique]
    split_ifs with hab
    · apply mem_unique_of_mem
      rcases List.mem_cons.mp h with h1 | h1
      · subst h1; subst hab; simp
      · exact h1
    · rcases List.mem_cons.mp h with h1 | h1
      · subst h1; simp
      · exact List.mem_cons_of_mem _ (mem_unique_of_mem h1)

/-- The chunk sizes that `Initialize` stores are the distinct requested sizes,
up to their order. -/
theorem unique_sort_perm_dedup (l : List Nat) :
    (unique (l.insertionSort (fun a b => a ≤ b))).Perm l.dedup := by
  have hnd : (unique (l.insertionSort (fun a b => a ≤ b))).Nodup :=
    (sizes_sorted_unique l).imp (fun h => Nat.ne_of_lt h)
  rw [List.perm_ext_iff_of_nodup hnd (List.nodup_dedup l)]
  intro x
  rw [List.mem_dedup]
  constructor
  · intro h
    exact (List.mem_insertionSort (fun a b => a ≤ b)).mp (mem_unique h)
  · intro h
    exact mem_unique_of_mem ((List.mem_insertionSort (fun a b => a ≤ b)).mpr h)

theorem checkSizes_none_iff (al : Nat) : ∀ (cs : List Nat) (acc : Nat),
    checkSizes al cs acc = none ↔ ∃ x ∈ cs, x % al ≠ 0
  | [], acc => by simp [checkSizes]
  | c :: rest, acc => by
    simp only [checkSizes]
    split_ifs with h
    · simp only [true_iff]
      exact ⟨c, List.mem_cons_self _ _, h⟩
    · rw [checkSizes_none_iff al rest]
      constructor
      · rintro ⟨x, hx, hxa⟩
        exact ⟨x, List.mem_cons_of_mem _ hx, hxa⟩
      · rintro ⟨x, hx, hxa⟩
        rcases List.mem_cons.mp hx with h1 | h1
        · subst h1; exact absurd hxa h
        · exact ⟨x, h1, hxa⟩

theorem checkSizes_some (al : Nat) : ∀ (cs : List Nat) (acc : Nat),
    (∀ x ∈ cs, x % al = 0) → acc < UINT32 →
    checkSizes al cs acc = some ((acc + cs.sum) % UINT32)
  | [], acc, _, hacc => by simp [checkSizes, Nat.mod_eq_of_lt hacc]
  | c :: rest, acc, h, _ => by
    have hc : ¬ c % al ≠ 0 := by
      simpa using h c (List.mem_cons_self _ _)
    simp only [checkSizes, hc, if_false, List.sum_cons]
    rw [checkSizes_some al rest _ (fun x hx => h x (List.mem_cons_of_mem _ hx))
      (Nat.mod_lt _ (by decide))]
    rw [Nat.mod_add_mod, Nat.add_assoc]

/-- When the sum of the distinct requested sizes fits `uint32_t`, `Initialize`
on a fresh allocator returns false exactly when a requested size is not a
multiple of the alignment or that sum exceeds the capacity. -/
theorem Initialize_false_iff_of_no_wrap (p_max_memory p_alignment buf : Nat)
    (sizes : List Nat) (hsum : sizes.dedup.sum < UINT32) :
    ((MemPool.new p_max_memory p_alignment buf).Initialize sizes).1 = false ↔
      (∃ x ∈ sizes, x % p_alignment ≠ 0) ∨ p_max_memory < sizes.dedup.sum := by
  have hperm := unique_sort_perm_dedup sizes
  have hmem : ∀ x, x ∈ unique (sizes.insertionSort (fun a b => a ≤ b)) ↔ x ∈ sizes := by
    intro x
    rw [hperm.mem_iff, List.mem_dedup]
  unfold MemPool.Initialize
  simp only [MemPool.new]
  by_cases hbad : ∃ x ∈ sizes, x % p_alignment ≠ 0
  · have : checkSizes p_alignment
        (unique (sizes.insertionSort (fun a b => a ≤ b))) 0 = none := by
      rw [checkSizes_none_iff]
      obtain ⟨x, hx, hxa⟩ := hbad
      exact ⟨x, (hmem x).mpr hx, hxa⟩
    simp [this, hbad]
  · have hall : ∀ x ∈ unique (sizes.insertionSort (fun a b => a ≤ b)),
        x % p_alignment = 0 := by
      intro x hx
      by_contra hne
      exact hbad ⟨x, (hmem x).mp hx, hne⟩
    have hcs := checkSizes_some p_alignment _ 0 hall (by decide)
    rw [Nat.zero_add, hperm.sum_eq, Nat.mod_eq_of_lt hsum] at hcs
    simp only [hcs, gt_iff_lt]
    split_ifs with hgt
    · simp [hgt]
    · simp [hbad, hgt]

/-! ## The addresses in the register were returned by Alloc -/

theorem poolAlloc_register {st st1 : MemPool} {c p : Nat}
    (h : st.poolAlloc c = some (p, st1)) :
    st1.subpool_register = st.subpool_register := by
  unfold MemPool.poolAlloc at h
  split at h
  · simp at h
  · simp only [Option.some.injEq, Prod.mk.injEq] at h
    obtain ⟨_, rfl⟩ := h
    rfl

theorem carve_register {st st' : MemPool} {c p : Nat}
    (h : st.carve c = some (p, st')) (q : Nat)
    (hq : mapFind q st'.subpool_register ≠ none) :
    mapFind q st.subpool_register ≠ none ∨ (q = p ∧ p ≠ 0) := by
  unfold MemPool.carve at h
  split_ifs at h
  · split at h
    · split at h
      · simp at h
      · simp only at h
        split_ifs at h with hp
        · simp only [Option.some.injEq, Prod.mk.injEq] at h
          obtain ⟨rfl, rfl⟩ := h
          simp only [mapFind_mapAssign] at hq
          split_ifs at hq with hqp
          · exact Or.inr ⟨hqp, hp⟩
          · exact Or.inl hq
        · simp only [Option.some.injEq, Prod.mk.injEq] at h
          obtain ⟨_, rfl⟩ := h
          exact Or.inl hq
    · simp only [Option.some.injEq, Prod.mk.injEq] at h
      obtain ⟨_, rfl⟩ := h
      exact Or.inl hq
  · simp only [Option.some.injEq, Prod.mk.injEq] at h
    obtain ⟨_, rfl⟩ := h
    exact Or.inl hq

theorem allocLoop_register (size : Nat) : ∀ (cs : List Nat) (ptr : Nat) (st : MemPool)
    (p : Nat) (st' : MemPool), MemPool.allocLoop size cs ptr st = some (p, st') →
    ∀ q, mapFind q st'.subpool_register ≠ none →
      mapFind q st.subpool_register ≠ none ∨ (q = p ∧ p ≠ 0)
  | [], ptr, st, p, st', h => by
    simp only [MemPool.allocLoop, Option.some.injEq, Prod.mk.injEq] at h
    obtain ⟨_, rfl⟩ := h
    exact fun q hq => Or.inl hq
  | hd :: rest, ptr, st, p, st', h => by
    simp only [MemPool.allocLoop] at h
    split_ifs at h with hfit
    · cases hpa : st.poolAlloc hd with
      | none => simp [hpa] at h
      | some r =>
        obtain ⟨p1, st1⟩ := r
        simp only [hpa] at h
        have hreg := poolAlloc_register hpa
        split_ifs at h with hp1
        · intro q hq
          have := carve_register h q hq
          rwa [hreg] at this
        · intro q hq
          have := allocLoop_register size rest p1 st1 p st' h q hq
          rwa [hreg] at this
    · exact allocLoop_register size rest ptr st p st' h

theorem Free_register {st st' : MemPool} {ptr : Nat} {b : Bool}
    (h : st.Free ptr = some (b, st')) :
    st'.subpool_register = st.subpool_register := by
  unfold MemPool.Free at h
  split_ifs at h
  · simp only [Option.some.injEq, Prod.mk.injEq] at h
    obtain ⟨_, rfl⟩ := h
    rfl
  · split at h
    · simp only [Option.some.injEq, Prod.mk.injEq] at h
      obtain ⟨_, rfl⟩ := h
      rfl
    · split at h
      · simp at h
      · simp only [Option.some.injEq, Prod.mk.injEq] at h
        obtain ⟨_, rfl⟩ := h
        rfl

/-- Every key of `subpool_register` is an address that `Alloc` has returned. -/
theorem returned_register {st : MemPool} {rets : List Nat} (h : Returned st rets) :
    ∀ q, mapFind q st.subpool_register ≠ none → q ∈ rets := by
  induction h with
  | init m al buf sizes st _ _ _ hinit =>
    intro q hq
    exfalso
    apply hq
    unfold MemPool.Initialize at hinit
    simp only at hinit
    split at hinit
    · simp at hinit
    · split_ifs at hinit
      · simp at hinit
      · simp only [Prod.mk.injEq, true_and] at hinit
        subst hinit
        rfl
  | alloc st st' rets size p _ ha ih =>
    intro q hq
    rcases allocLoop_register size st.chunk_sizes 0 st p st' ha q hq with h1 | ⟨h1, h2⟩
    · have := ih q h1
      split_ifs
      · exact this
      · exact List.mem_cons_of_mem _ this
    · rw [if_neg h2, h1]
      exact List.mem_cons_self _ _
  | free st st' rets ptr b _ hf ih =>
    intro q hq
    rw [Free_register hf] at hq
    exact ih q hq

/-! ## The concrete allocators -/

theorem testPool_init :
    (MemPool.new 2048 8 4096).Initialize [64, 128, 256] = (true, testPool) := by decide

theorem testPool_reachable : Reachable testPool [] :=
  Reachable.init 2048 8 4096 [64, 128, 256] testPool (by decide) (by decide) (by decide)
    testPool_init

theorem testPool1_alloc : testPool.Alloc 50 = some (4096, testPool1) := by decide

theorem testPool1_reachable : Reachable testPool1 [4096] :=
  Reachable.alloc testPool testPool1 [] 50 4096 testPool_reachable testPool1_alloc

theorem zeroPool_init :
    (MemPool.new 1024 8 4096).Initialize [0, 64] = (true, zeroPool) := by decide

theorem zeroPool_reachable : Reachable zeroPool [] :=
  Reachable.init 1024 8 4096 [0, 64] zeroPool (by decide) (by decide) (by decide)
    zeroPool_init

theorem zeroPool1_alloc : zeroPool.Alloc 0 = some (4096, zeroPool1) := by decide

theorem zeroPool1_reachable : Reachable zeroPool1 [4096] :=
  Reachable.alloc zeroPool zeroPool1 [] 0 4096 zeroPool_reachable zeroPool1_alloc

/-- The three configurations of the fixture `MemPoolInitialize` of `test.cpp`
(capacity 1024, alignment 8). -/
theorem Initialize_examples :
    ((MemPool.new 1024 8 4096).Initialize [64, 128, 256]).1 = true ∧
      ((MemPool.new 1024 8 4096).Initialize [64, 126, 256]).1 = false ∧
      ((MemPool.new 1024 8 4096).Initialize [64, 128, 256, 1024]).1 = false := by
  decide

/-! ## The claims -/

/-- C1 (the code departs from the claim): `MemPool::Initialize` adds the chunk
sizes in `uint32_t`. With capacity 1024, alignment 8 and the sizes 2147483648
and 2147483656, both multiples of 8 and of sum 4294967304 > 1024, the sum
wraps around to 8 and `Initialize` returns true. -/
theorem C1_initialize_sum_wraps :
    ((MemPool.new 1024 8 4096).Initialize [2147483648, 2147483656]).1 = true ∧
      (∀ x ∈ [2147483648, 2147483656], x < UINT32 ∧ x % 8 = 0) ∧
      1024 < ([2147483648, 2147483656] : List Nat).dedup.sum ∧
      checkSizes 8 [2147483648, 2147483656] 0 = some 8 := by
  decide

theorem allocLoop_none_fit (size : Nat) : ∀ (cs : List Nat) (ptr : Nat) (st : MemPool),
    (∀ c ∈ cs, c < size) → MemPool.allocLoop size cs ptr st = some (ptr, st)
  | [], _, _, _ => rfl
  | hd :: rest, ptr, st, h => by
    have h1 : ¬ size ≤ hd := by
      have := h hd (List.mem_cons_self _ _)
      omega
    simp only [MemPool.allocLoop, h1, if_false]
    exact allocLoop_none_fit size rest ptr st (fun c hc => h c (List.mem_cons_of_mem _ hc))

theorem testPool2_free : testPool1.Free 4096 = some (true, testPool2) := by decide

theorem testPool2_reachable : Reachable testPool2 [] :=
  Reachable.free testPool1 testPool2 [4096] 4096 true testPool1_reachable testPool2_free

/-- C2 (the code departs from the claim): in the reachable state `testPool2`
the smallest chunk size that fits a request of 50 bytes is 64, and the pool of
64 holds the free chunk 4096. `Alloc(50)` marks that chunk used, does not
leave the loop, goes on to the chunk size 128, carves the new chunk 4160 there
and returns it: the address returned is registered to the pool of 128, and the
pool of 128 is not what it was before the call. -/
theorem C2_alloc_goes_on_to_larger_class :
    Reachable testPool2 [] ∧
      (64 ∈ testPool2.chunk_sizes ∧ 50 ≤ 64 ∧
        ∀ c' ∈ testPool2.chunk_sizes, 50 ≤ c' → 64 ≤ c') ∧
      mapFind 64 testPool2.sub_pools =
        some { chunk_size := 64, chunk_count := 1, chunks := [(4096, true)] } ∧
      mapFind 128 testPool2.sub_pools = some (SubPool.new 128) ∧
      testPool2.Alloc 50 = some (4160, testPool3) ∧
      mapFind 4160 testPool3.subpool_register = some 128 ∧
      mapFind 64 testPool3.sub_pools =
        some { chunk_size := 64, chunk_count := 1, chunks := [(4096, false)] } ∧
      mapFind 128 testPool3.sub_pools =
        some { chunk_size := 128, chunk_count := 1, chunks := [(4160, false)] } :=
  ⟨testPool2_reachable, by decide, by decide, by decide, by decide, by decide, by decide,
    by decide⟩

/-- C3 (the code departs from the claim): on `testPool`, two calls `Alloc(64)`
return 4096 and 4160 and leave `read_buffer` at 4224 and `available_size` at
1920. After both addresses are freed, two more calls `Alloc(64)` return the new
addresses 4224 and 4352, carved for the chunk size 128, and leave
`read_buffer` at 4480 and `available_size` at 1664. -/
theorem C3_second_round_carves_again :
    (testPool.run [Call.alloc 64, Call.alloc 64]).map
        (fun r => (r.1, r.2.read_buffer, r.2.available_size)) =
      some ([Ret.addr 4096, Ret.addr 4160], 4224, 1920) ∧
    (testPool.run [Call.alloc 64, Call.alloc 64, Call.free 4096, Call.free 4160,
        Call.alloc 64, Call.alloc 64]).map
        (fun r => (r.1, r.2.read_buffer, r.2.available_size)) =
      some ([Ret.addr 4096, Ret.addr 4160, Ret.done true, Ret.done true,
        Ret.addr 4224, Ret.addr 4352], 4480, 1664) := by
  decide

/-- C10 (the code departs from the claim): on `testPool`, `Alloc(64)` returns
4096 and `Free(4096)` returns true; the next `Alloc(64)` returns 4160, not
4096, yet it has marked 4096 used on its way, and the next `Free(4096)`
returns true again. -/
theorem C10_second_free_succeeds :
    (testPool.run [Call.alloc 64, Call.free 4096, Call.alloc 64, Call.free 4096]).map
        (fun r => r.1) =
      some [Ret.addr 4096, Ret.done true, Ret.addr 4160, Ret.done true] := by
  decide

/-- C4: in a reachable state, `Free` of a live address (returned by `Alloc`
and not freed since) returns true and leaves the address marked free in the
pool it is registered to, so that this pool has a chunk to hand out; a second
`Free` of the address right after returns false and changes nothing. -/
theorem C4_free_live_then_double_free {st : MemPool} {live : List Nat} {p : Nat}
    (hR : Reachable st live) (hp : p ∈ live) :
    ∃ st' k sp', st.Free p = some (true, st') ∧
      mapFind p st'.subpool_register = some k ∧ mapFind k st'.sub_pools = some sp' ∧
      mapFind p sp'.chunks = some true ∧ (sp'.Alloc).1 ≠ 0 ∧
      st'.Free p = some (false, st') := by
  obtain ⟨hI, hL⟩ := reachable_inv hR
  obtain ⟨k, sp, hreg, hsp, hfl⟩ := hL p hp
  have hpos := inv_chunk_pos hI hsp
  have hp0 : p ≠ 0 := by
    have := hpos (p, false) (mapFind_some_mem hfl)
    simp only at this
    omega
  refine ⟨{ st with sub_pools := mapAssign k
                                   { sp with chunks := mapAssign p true sp.chunks }
                                   st.sub_pools }, k,
    { sp with chunks := mapAssign p true sp.chunks }, ?_, hreg,
    mapFind_mapAssign_self _ _ _, mapFind_mapAssign_self _ _ _, ?_, ?_⟩
  · simp [MemPool.Free, hp0, hreg, hsp, SubPool.Free, hfl]
  · have hmem : (p, true) ∈ mapAssign p true sp.chunks :=
      mapFind_some_mem (mapFind_mapAssign_self _ _ _)
    obtain ⟨h1, _⟩ := scanFree_found ⟨(p, true), hmem, rfl⟩
    show (SubPool.scanFree (mapAssign p true sp.chunks)).1 ≠ 0
    rcases mem_mapAssign h1 with h2 | h2
    · rw [(Prod.mk.inj h2).1]; exact hp0
    · have := hpos _ h2
      simp only at this
      omega
  · have hs2 : KeysSorted (mapAssign k
        ({ sp with chunks := mapAssign p true sp.chunks } : SubPool) st.sub_pools) :=
      keysSorted_mapAssign _ _ hI.pools_sorted
    have hfix := mapAssign_of_find hs2 (mapFind_mapAssign_self k
      ({ sp with chunks := mapAssign p true sp.chunks } : SubPool) st.sub_pools)
    simp [MemPool.Free, hp0, hreg, mapFind_mapAssign_self, SubPool.Free, hfix]

theorem C4_free_live_then_double_free_witness :
    ∃ st' k sp', testPool1.Free 4096 = some (true, st') ∧
      mapFind 4096 st'.subpool_register = some k ∧ mapFind k st'.sub_pools = some sp' ∧
      mapFind 4096 sp'.chunks = some true ∧ (sp'.Alloc).1 ≠ 0 ∧
      st'.Free 4096 = some (false, st') :=
  C4_free_live_then_double_free testPool1_reachable (by decide)

/-- C5: `Free` of an address that `Alloc` has never returned, of the null
address, or of any address that is not a key of `subpool_register`, returns
false and leaves the whole state (read_buffer, available_size, register and
every pool) as it was. -/
theorem C5_free_unknown {st : MemPool} {rets : List Nat} (p : Nat)
    (hR : Returned st rets)
    (h : p ∉ rets ∨ p = 0 ∨ mapFind p st.subpool_register = none) :
    st.Free p = some (false, st) := by
  have hnone : p ≠ 0 → mapFind p st.subpool_register = none := by
    intro hp0
    rcases h with h | h | h
    · by_contra hne
      exact h (returned_register hR p hne)
    · exact absurd h hp0
    · exact h
  unfold MemPool.Free
  split_ifs with h0
  · rfl
  · simp [hnone h0]

theorem testPool1_returned : Returned testPool1 [4096] :=
  Returned.alloc testPool testPool1 [] 50 4096
    (Returned.init 2048 8 4096 [64, 128, 256] testPool (by decide) (by decide) (by decide)
      testPool_init) testPool1_alloc

theorem C5_free_unknown_witness :
    (4160 ∉ [4096] ∨ 4160 = 0 ∨ mapFind 4160 testPool1.subpool_register = none) ∧
      testPool1.Free 4160 = some (false, testPool1) :=
  ⟨by decide, C5_free_unknown 4160 testPool1_returned (by decide)⟩

/-- C6: with a power of two as alignment, every non-null address that `Alloc`
returns in a reachable state is a multiple of the alignment, is registered and
marked used in a pool, and for every pool that holds it, of chunk size `c`,
the bytes `[a, a + c)` lie inside the buffer. -/
theorem C6_alloc_aligned_in_bounds {st st' : MemPool} {live : List Nat} {size a n : Nat}
    (hR : Reachable st live) (hal : st.alignment = 2 ^ n)
    (h : st.Alloc size = some (a, st')) (ha : a ≠ 0) :
    a % st.alignment = 0 ∧
      (∃ c sp, mapFind a st'.subpool_register = some c ∧
        mapFind c st'.sub_pools = some sp ∧ mapFind a sp.chunks = some false) ∧
      ∀ c sp f, mapFind c st'.sub_pools = some sp → mapFind a sp.chunks = some f →
        st.buffer ≤ a ∧ a + c ≤ st.buffer + st.max_memory := by
  have hR' := Reachable.alloc st st' live size a hR h
  rw [if_neg ha] at hR'
  obtain ⟨hI', hL'⟩ := reachable_inv hR'
  obtain ⟨hc1, hc2, _, hc4⟩ := Alloc_config h
  obtain ⟨k, sp, hreg, hsp, hfl⟩ := hL' a (List.mem_cons_self _ _)
  refine ⟨?_, ⟨k, sp, hreg, hsp, hfl⟩, ?_⟩
  · have := (hI'.pool_inv k sp hsp).aligned a false (mapFind_some_mem hfl) n
      (by rw [hc2]; exact hal)
    rw [hc2] at this
    exact this
  · intro c sp2 f h2 h3
    have hb := (hI'.pool_inv c sp2 h2).bounds a f (mapFind_some_mem h3)
    have hbal := hI'.balance
    rw [hc4] at hb hbal
    rw [hc1] at hbal
    omega

theorem C6_alloc_aligned_in_bounds_witness :
    4096 % testPool.alignment = 0 ∧
      (∃ c sp, mapFind 4096 testPool1.subpool_register = some c ∧
        mapFind c testPool1.sub_pools = some sp ∧ mapFind 4096 sp.chunks = some false) ∧
      ∀ c sp f, mapFind c testPool1.sub_pools = some sp → mapFind 4096 sp.chunks = some f →
        testPool.buffer ≤ 4096 ∧ 4096 + c ≤ testPool.buffer + testPool.max_memory :=
  C6_alloc_aligned_in_bounds (n := 3) testPool_reachable (by decide) testPool1_alloc
    (by decide)

/-- C7: when the requested size is greater than every configured chunk size,
`Alloc` returns null and leaves the whole state as it was. -/
theorem C7_alloc_too_big (st : MemPool) (size : Nat)
    (h : ∀ c ∈ st.chunk_sizes, c < size) : st.Alloc size = some (0, st) :=
  allocLoop_none_fit size st.chunk_sizes 0 st h

theorem C7_alloc_too_big_witness :
    (∀ c ∈ testPool.chunk_sizes, c < 512) ∧ testPool.Alloc 512 = some (0, testPool) :=
  ⟨by decide, C7_alloc_too_big testPool 512 (by decide)⟩

theorem poolAlloc_nofree {st : MemPool} {c : Nat} {sp : SubPool} (hI : Inv st)
    (hsp : mapFind c st.sub_pools = some sp) (hno : ∀ e ∈ sp.chunks, e.2 = false) :
    st.poolAlloc c = some (0, st) := by
  have h2 : (sp.Alloc) = (0, sp) := by
    simp [SubPool.Alloc, scanFree_nofree hno]
  simp [MemPool.poolAlloc, hsp, h2, mapAssign_of_find hI.pools_sorted hsp]

theorem allocLoop_smallest_fit (size c : Nat) : ∀ (cs : List Nat) (ptr : Nat)
    (st : MemPool), cs.Pairwise (fun a b => a < b) → c ∈ cs → size ≤ c →
    (∀ c' ∈ cs, size ≤ c' → c ≤ c') → st.poolAlloc c = some (0, st) →
    MemPool.allocLoop size cs ptr st = st.carve c
  | [], _, _, _, hc, _, _, _ => by simp at hc
  | hd :: rest, ptr, st, hs, hc, hfit, hmin, hpa => by
    have hs' := List.pairwise_cons.mp hs
    simp only [MemPool.allocLoop]
    split_ifs with h1
    · have hle := hmin hd (List.mem_cons_self _ _) h1
      have hcd : c = hd := by
        rcases List.mem_cons.mp hc with h2 | h2
        · exact h2
        · have := hs'.1 c h2
          omega
      subst hcd
      simp [hpa]
    · have hc' : c ∈ rest := by
        rcases List.mem_cons.mp hc with h2 | h2
        · subst h2; exact absurd hfit h1
        · exact h2
      exact allocLoop_smallest_fit size c rest ptr st hs'.2 hc' hfit
        (fun c' hc2 => hmin c' (List.mem_cons_of_mem _ hc2)) hpa

theorem carve_no_room {st : MemPool} {c : Nat}
    (h : st.available_size = 0 ∨
      st.available_size < alignOffset st.alignment st.read_buffer + c) :
    st.carve c = some (0, st) := by
  unfold MemPool.carve
  split_ifs with hav
  · have hal : std_align st.alignment c st.read_buffer st.available_size = none := by
      unfold std_align
      rw [if_pos]
      omega
    simp [hal]
  · rfl

theorem carve_fresh {st : MemPool} {c : Nat} {sp : SubPool} (hI : Inv st)
    (hsp : mapFind c st.sub_pools = some sp) (hno : ∀ e ∈ sp.chunks, e.2 = false)
    (hc0 : 0 < c)
    (hroom : ¬ (st.available_size = 0 ∨
      st.available_size < alignOffset st.alignment st.read_buffer + c)) :
    ∃ st', st.carve c =
        some (st.read_buffer + alignOffset st.alignment st.read_buffer, st') ∧
      st.read_buffer + alignOffset st.alignment st.read_buffer ≠ 0 ∧
      mapFind (st.read_buffer + alignOffset st.alignment st.read_buffer) sp.chunks = none ∧
      st'.read_buffer = st.read_buffer + alignOffset st.alignment st.read_buffer + c ∧
      st'.available_size =
        st.available_size - alignOffset st.alignment st.read_buffer - c ∧
      mapFind (st.read_buffer + alignOffset st.alignment st.read_buffer)
        st'.subpool_register = some c ∧
      (∃ sp', mapFind c st'.sub_pools = some sp' ∧
        mapFind (st.read_buffer + alignOffset st.alignment st.read_buffer) sp'.chunks
          = some false) ∧
      ∀ k, k ≠ c → mapFind k st'.sub_pools = mapFind k st.sub_pools := by
  have hP := hI.pool_inv c sp hsp
  have hbal := hI.balance
  have hge := hI.cursor_ge
  have hmax := hI.max_lt
  have hbuf := hI.buf_pos
  generalize hoff : alignOffset st.alignment st.read_buffer = off at hroom ⊢
  have hal : std_align st.alignment c st.read_buffer st.available_size =
      some (st.read_buffer + off, st.available_size - off) := by
    unfold std_align
    rw [hoff, if_neg]
    omega
  have hkey : mapFind (st.read_buffer + off) sp.chunks = none := by
    rw [mapFind_none_iff]
    intro e he
    have := hP.bounds e.1 e.2 he
    omega
  have hmem : (st.read_buffer + off, true) ∈ mapInsert (st.read_buffer + off) true sp.chunks :=
    mem_mapInsert_self hkey
  obtain ⟨hf1, hf2⟩ := scanFree_found ⟨(st.read_buffer + off, true), hmem, rfl⟩
  have hp2 : (SubPool.scanFree (mapInsert (st.read_buffer + off) true sp.chunks)).1 =
      st.read_buffer + off := by
    rcases mem_mapInsert hf1 with h1 | h1
    · exact (Prod.mk.inj h1).1
    · exact absurd (hno _ h1) (by simp)
  rw [hp2] at hf2
  have hB1 : (((sp.AddNewChunk (st.read_buffer + off)).2).Alloc).1 = st.read_buffer + off := by
    simp [SubPool.AddNewChunk, SubPool.Alloc, hp2]
  have hchunks : (((sp.AddNewChunk (st.read_buffer + off)).2).Alloc).2.chunks =
      (SubPool.scanFree (mapInsert (st.read_buffer + off) true sp.chunks)).2 := by
    simp [SubPool.AddNewChunk, SubPool.Alloc]
  have hres0 : st.read_buffer + off ≠ 0 := by omega
  have hsub : (st.available_size - off + UINT32 - c) % UINT32 =
      st.available_size - off - c := sub32_eq (by omega) (by omega)
  have hav : 0 < st.available_size := by omega
  unfold MemPool.carve
  simp only [hav, if_true, hal, hsp, hB1, ne_eq, hres0, not_false_eq_true, hsub]
  refine ⟨_, rfl, trivial, hkey, rfl, rfl, mapFind_mapAssign_self _ _ _,
    ⟨_, mapFind_mapAssign_self _ _ _, by rw [hchunks]; exact hf2⟩, ?_⟩
  intro k hk
  exact mapFind_mapAssign_ne _ _ hk

/-- C9: when `Alloc` returns null in a reachable state, `read_buffer`,
`available_size` and `subpool_register` are the same after the call as before. -/
theorem C9_failed_alloc_keeps_cursor {st st' : MemPool} {live : List Nat} {size : Nat}
    (hR : Reachable st live) (h : st.Alloc size = some (0, st')) :
    st'.read_buffer = st.read_buffer ∧ st'.available_size = st.available_size ∧
      st'.subpool_register = st.subpool_register := by
  obtain ⟨_, _, hF⟩ := Alloc_spec (reachable_inv hR).1 h
  have hF' : Frame st st' := hF rfl
  refine ⟨?_, ?_, ?_⟩ <;> rw [hF']


theorem zeroPool2_alloc : zeroPool1.Alloc 0 = some (0, zeroPool2) := by decide

theorem C9_failed_alloc_keeps_cursor_witness :
    zeroPool2.read_buffer = zeroPool1.read_buffer ∧
      zeroPool2.available_size = zeroPool1.available_size ∧
      zeroPool2.subpool_register = zeroPool1.subpool_register :=
  C9_failed_alloc_keeps_cursor zeroPool1_reachable zeroPool2_alloc

/-! ## The chunk sizes that Initialize stores -/

theorem Initialize_chunk_sizes (st : MemPool) (sizes : List Nat) :
    (st.Initialize sizes).2.chunk_sizes =
      unique (sizes.insertionSort (fun a b => a ≤ b)) := by
  unfold MemPool.Initialize
  simp only
  split
  · rfl
  · split_ifs <;> rfl

theorem mem_unique_sort (sizes : List Nat) (x : Nat) :
    x ∈ unique (sizes.insertionSort (fun a b => a ≤ b)) ↔ x ∈ sizes := by
  rw [(unique_sort_perm_dedup sizes).mem_iff, List.mem_dedup]

/-- Two requests with the same values give the same stored chunk sizes. -/
theorem unique_sort_congr {sizes sizes2 : List Nat} (h : ∀ x, x ∈ sizes2 ↔ x ∈ sizes) :
    unique (sizes2.insertionSort (fun a b => a ≤ b)) =
      unique (sizes.insertionSort (fun a b => a ≤ b)) := by
  have hnd : ∀ l : List Nat, (unique (l.insertionSort (fun a b => a ≤ b))).Nodup :=
    fun l => (sizes_sorted_unique l).imp (fun h => Nat.ne_of_lt h)
  have hperm : (unique (sizes2.insertionSort (fun a b => a ≤ b))).Perm
      (unique (sizes.insertionSort (fun a b => a ≤ b))) := by
    rw [List.perm_ext_iff_of_nodup (hnd sizes2) (hnd sizes)]
    intro x
    rw [mem_unique_sort, mem_unique_sort]
    exact h x
  have hle : ∀ l : List Nat,
      (unique (l.insertionSort (fun a b => a ≤ b))).Sorted (fun a b => a ≤ b) :=
    fun l => (sizes_sorted_unique l).imp (fun h => Nat.le_of_lt h)
  exact List.eq_of_perm_of_sorted hperm (hle sizes2) (hle sizes)

/-- C11: after `Initialize` the stored chunk sizes are strictly ascending, free
of duplicates and have exactly the values of the request; a request with the
same set of values gives the same result and the same state. -/
theorem C11_initialize_normalizes (st : MemPool) (sizes sizes2 : List Nat)
    (h : ∀ x, x ∈ sizes2 ↔ x ∈ sizes) :
    (st.Initialize sizes).2.chunk_sizes.Pairwise (fun a b => a < b) ∧
      (st.Initialize sizes).2.chunk_sizes.Nodup ∧
      (∀ x, x ∈ (st.Initialize sizes).2.chunk_sizes ↔ x ∈ sizes) ∧
      st.Initialize sizes2 = st.Initialize sizes := by
  refine ⟨?_, ?_, ?_, ?_⟩
  · rw [Initialize_chunk_sizes]
    exact sizes_sorted_unique sizes
  · rw [Initialize_chunk_sizes]
    exact (sizes_sorted_unique sizes).imp (fun h => Nat.ne_of_lt h)
  · intro x
    rw [Initialize_chunk_sizes]
    exact mem_unique_sort sizes x
  · unfold MemPool.Initialize
    rw [unique_sort_congr h]

theorem C11_initialize_normalizes_witness :
    ((MemPool.new 2048 8 4096).Initialize [64, 128, 256]).2.chunk_sizes.Pairwise
        (fun a b => a < b) ∧
      ((MemPool.new 2048 8 4096).Initialize [64, 128, 256]).2.chunk_sizes.Nodup ∧
      (∀ x, x ∈ ((MemPool.new 2048 8 4096).Initialize [64, 128, 256]).2.chunk_sizes ↔
        x ∈ [64, 128, 256]) ∧
      (MemPool.new 2048 8 4096).Initialize [128, 64, 128, 256] =
        (MemPool.new 2048 8 4096).Initialize [64, 128, 256] :=
  C11_initialize_normalizes (MemPool.new 2048 8 4096) [64, 128, 256] [128, 64, 128, 256]
    (by intro x; simp only [List.mem_cons, List.mem_singleton, List.not_mem_nil]; tauto)

/-! ## SubPool::Alloc -/

theorem scanFree_keys : ∀ (l : List (Nat × Bool)),
    (SubPool.scanFree l).2.map Prod.fst = l.map Prod.fst
  | [] => rfl
  | (a, f) :: rest => by
    simp only [SubPool.scanFree]
    split_ifs with h
    · rfl
    · simp only [List.map_cons, scanFree_keys rest]

theorem scanFree_lowest {l : List (Nat × Bool)} (hs : KeysSorted l) :
    ∀ e ∈ l, e.2 = true → (SubPool.scanFree l).1 ≤ e.1 := by
  induction l with
  | nil => simp
  | cons hd tl ih =>
    obtain ⟨a, f⟩ := hd
    have hs' := List.pairwise_cons.mp hs
    intro e he het
    simp only [SubPool.scanFree]
    split_ifs with h1
    · rcases List.mem_cons.mp he with h2 | h2
      · rw [h2]
      · exact Nat.le_of_lt (hs'.1 e h2)
    · rcases List.mem_cons.mp he with h2 | h2
      · rw [h2] at het
        exact absurd het h1
      · exact ih hs'.2 e h2 het

/-- C18: for a pool whose chunk map holds non-null addresses in key order,
`SubPool::Alloc` returns null exactly when no chunk is marked free, and then
leaves the pool as it was; otherwise it returns the lowest address that was
marked free, marks that chunk used, and leaves the flag of every other chunk,
the addresses of the map, `chunk_count` and `chunk_size` as they were. -/
theorem C18_subpool_alloc (sp : SubPool) (hs : KeysSorted sp.chunks)
    (hpos : ∀ e ∈ sp.chunks, e.1 ≠ 0) :
    ((sp.Alloc).1 = 0 ↔ ∀ e ∈ sp.chunks, e.2 = false) ∧
      ((sp.Alloc).1 = 0 → (sp.Alloc).2 = sp) ∧
      ((sp.Alloc).1 ≠ 0 →
        mapFind (sp.Alloc).1 sp.chunks = some true ∧
        (∀ e ∈ sp.chunks, e.2 = true → (sp.Alloc).1 ≤ e.1) ∧
        mapFind (sp.Alloc).1 (sp.Alloc).2.chunks = some false ∧
        (∀ q, q ≠ (sp.Alloc).1 → mapFind q (sp.Alloc).2.chunks = mapFind q sp.chunks)) ∧
      (sp.Alloc).2.chunks.map Prod.fst = sp.chunks.map Prod.fst ∧
      (sp.Alloc).2.chunk_count = sp.chunk_count ∧
      (sp.Alloc).2.chunk_size = sp.chunk_size := by
  have hpos' : ∀ e ∈ sp.chunks, 0 < e.1 := fun e he => Nat.pos_of_ne_zero (hpos e he)
  have hzero : (sp.Alloc).1 = 0 → ∀ e ∈ sp.chunks, e.2 = false :=
    fun h => scanFree_zero hpos' h
  refine ⟨⟨hzero, ?_⟩, ?_, ?_, scanFree_keys sp.chunks, rfl, rfl⟩
  · intro h
    simp [SubPool.Alloc, scanFree_nofree h]
  · intro h
    simp [SubPool.Alloc, scanFree_nofree (hzero h)]
  · intro hne
    rcases scanFree_cases sp.chunks with ⟨_, h2⟩ | ⟨h1, h2⟩
    · exfalso
      apply hne
      simp [SubPool.Alloc, h2]
    · exact ⟨mapFind_of_mem hs h1, scanFree_lowest hs, h2,
        fun q hq => scanFree_find_other hq⟩

theorem C18_subpool_alloc_witness :
    KeysSorted examplePool.chunks ∧ (∀ e ∈ examplePool.chunks, e.1 ≠ 0) ∧
      ((examplePool.Alloc).1 = 0 ↔ ∀ e ∈ examplePool.chunks, e.2 = false) ∧
      ((examplePool.Alloc).1 = 0 → (examplePool.Alloc).2 = examplePool) ∧
      ((examplePool.Alloc).1 ≠ 0 →
        mapFind (examplePool.Alloc).1 examplePool.chunks = some true ∧
        (∀ e ∈ examplePool.chunks, e.2 = true → (examplePool.Alloc).1 ≤ e.1) ∧
        mapFind (examplePool.Alloc).1 (examplePool.Alloc).2.chunks = some false ∧
        (∀ q, q ≠ (examplePool.Alloc).1 →
          mapFind q (examplePool.Alloc).2.chunks = mapFind q examplePool.chunks)) ∧
      (examplePool.Alloc).2.chunks.map Prod.fst = examplePool.chunks.map Prod.fst ∧
      (examplePool.Alloc).2.chunk_count = examplePool.chunk_count ∧
      (examplePool.Alloc).2.chunk_size = examplePool.chunk_size :=
  ⟨by simp [KeysSorted, examplePool], by decide,
    C18_subpool_alloc examplePool (by simp [KeysSorted, examplePool]) (by decide)⟩

/-- The call of `SubPool::Alloc` on `examplePool` returns 4160, the lower of the
two free chunks. -/
theorem examplePool_alloc :
    examplePool.Alloc =
      (4160, ⟨64, 3, [(4096, false), (4160, false), (4224, true)]⟩) := by
  decide

/-! ## The frame of Free -/

theorem mapAssign_keys {β : Type} {k : Nat} {v v' : β} {m : List (Nat × β)}
    (hs : KeysSorted m) (h : mapFind k m = some v) :
    (mapAssign k v' m).map Prod.fst = m.map Prod.fst := by
  induction m with
  | nil => simp [mapFind] at h
  | cons hd tl ih =>
    obtain ⟨k2, v2⟩ := hd
    have hs' := List.pairwise_cons.mp hs
    simp only [mapFind] at h
    simp only [mapAssign]
    split_ifs at h with h0
    · subst h0; simp
    · have hm := hs'.1 _ (mapFind_some_mem h)
      simp only at hm
      rw [if_neg (by omega), if_neg h0, List.map_cons, List.map_cons, ih hs'.2 h]

/-- What `SubPool::Free` leaves alone: the counters, the addresses of the map
and the flag of every other chunk. -/
theorem subpool_free_frame (sp : SubPool) (p : Nat) (hs : KeysSorted sp.chunks) :
    (sp.Free p).2.chunk_count = sp.chunk_count ∧
      (sp.Free p).2.chunk_size = sp.chunk_size ∧
      (sp.Free p).2.chunks.map Prod.fst = sp.chunks.map Prod.fst ∧
      ∀ q, q ≠ p → mapFind q (sp.Free p).2.chunks = mapFind q sp.chunks := by
  unfold SubPool.Free
  cases hfl : mapFind p sp.chunks with
  | none => exact ⟨rfl, rfl, rfl, fun _ _ => rfl⟩
  | some f =>
    cases f with
    | true => exact ⟨rfl, rfl, rfl, fun _ _ => rfl⟩
    | false =>
      refine ⟨rfl, rfl, mapAssign_keys hs hfl, ?_⟩
      intro q hq
      exact mapFind_mapAssign_ne _ _ hq

theorem carve_register_keep {st st' : MemPool} {c p : Nat}
    (h : st.carve c = some (p, st')) (q : Nat)
    (hq : mapFind q st.subpool_register ≠ none) :
    mapFind q st'.subpool_register ≠ none := by
  unfold MemPool.carve at h
  split_ifs at h
  · split at h
    · split at h
      · simp at h
      · simp only at h
        split_ifs at h with hp
        · simp only [Option.some.injEq, Prod.mk.injEq] at h
          obtain ⟨_, rfl⟩ := h
          simp only [mapFind_mapAssign]
          split_ifs
          · simp
          · exact hq
        · simp only [Option.some.injEq, Prod.mk.injEq] at h
          obtain ⟨_, rfl⟩ := h
          exact hq
    · simp only [Option.some.injEq, Prod.mk.injEq] at h
      obtain ⟨_, rfl⟩ := h
      exact hq
  · simp only [Option.some.injEq, Prod.mk.injEq] at h
    obtain ⟨_, rfl⟩ := h
    exact hq

theorem allocLoop_register_keep (size : Nat) : ∀ (cs : List Nat) (ptr : Nat)
    (st : MemPool) (p : Nat) (st' : MemPool),
    MemPool.allocLoop size cs ptr st = some (p, st') →
    ∀ q, mapFind q st.subpool_register ≠ none → mapFind q st'.subpool_register ≠ none
  | [], ptr, st, p, st', h => by
    simp only [MemPool.allocLoop, Option.some.injEq, Prod.mk.injEq] at h
    obtain ⟨_, rfl⟩ := h
    exact fun q hq => hq
  | hd :: rest, ptr, st, p, st', h => by
    simp only [MemPool.allocLoop] at h
    split_ifs at h with hfit
    · cases hpa : st.poolAlloc hd with
      | none => simp [hpa] at h
      | some r =>
        obtain ⟨p1, st1⟩ := r
        simp only [hpa] at h
        have hreg := poolAlloc_register hpa
        split_ifs at h with hp1
        · intro q hq
          rw [← hreg] at hq
          exact carve_register_keep h q hq
        · intro q hq
          rw [← hreg] at hq
          exact allocLoop_register_keep size rest p1 st1 p st' h q hq
    · exact allocLoop_register_keep size rest ptr st p st' h

/-- C19: in a reachable state `Free(p)` returns, and it leaves `read_buffer`,
`available_size`, the chunk sizes, `subpool_register` and the configuration as
they were; it adds and removes no pool; in every pool it leaves `chunk_count`,
`chunk_size`, the addresses and the flag of every chunk other than `p` as they
were, and a pool other than the one `p` is registered to is left whole. When
`p` is non-null and registered, the boolean returned and the new state of its
pool are those of `SubPool::Free` on that pool; otherwise `Free` returns false
and changes nothing. A later `Alloc` removes no entry of `subpool_register`. -/
theorem C19_free_changes_one_flag {st : MemPool} {live : List Nat} (p : Nat)
    (hR : Reachable st live) :
    ∃ b st', st.Free p = some (b, st') ∧
      st'.read_buffer = st.read_buffer ∧ st'.available_size = st.available_size ∧
      st'.chunk_sizes = st.chunk_sizes ∧ st'.subpool_register = st.subpool_register ∧
      st'.max_memory = st.max_memory ∧ st'.alignment = st.alignment ∧
      st'.buffer = st.buffer ∧
      (∀ k, mapFind k st'.sub_pools = none ↔ mapFind k st.sub_pools = none) ∧
      (∀ k sp sp', mapFind k st.sub_pools = some sp → mapFind k st'.sub_pools = some sp' →
        sp'.chunk_count = sp.chunk_count ∧ sp'.chunk_size = sp.chunk_size ∧
        sp'.chunks.map Prod.fst = sp.chunks.map Prod.fst ∧
        (∀ q, q ≠ p → mapFind q sp'.chunks = mapFind q sp.chunks) ∧
        (mapFind p st.subpool_register ≠ some k → sp' = sp)) ∧
      (∀ k sp, p ≠ 0 → mapFind p st.subpool_register = some k →
        mapFind k st.sub_pools = some sp →
        b = (sp.Free p).1 ∧ mapFind k st'.sub_pools = some (sp.Free p).2) ∧
      ((p = 0 ∨ mapFind p st.subpool_register = none) → b = false ∧ st' = st) ∧
      (∀ size r st'', st'.Alloc size = some (r, st'') →
        ∀ q, mapFind q st'.subpool_register ≠ none →
          mapFind q st''.subpool_register ≠ none) := by
  have hI := (reachable_inv hR).1
  have hkeep : ∀ (s : MemPool) (size r : Nat) (s'' : MemPool),
      s.Alloc size = some (r, s'') →
      ∀ q, mapFind q s.subpool_register ≠ none → mapFind q s''.subpool_register ≠ none :=
    fun s size r s'' h => allocLoop_register_keep size s.chunk_sizes 0 s r s'' h
  have hsame : (p = 0 ∨ mapFind p st.subpool_register = none) →
      st.Free p = some (false, st) := by
    intro h
    unfold MemPool.Free
    split_ifs with h0
    · rfl
    · rcases h with h | h
      · exact absurd h h0
      · simp [h]
  by_cases hcase : p = 0 ∨ mapFind p st.subpool_register = none
  · refine ⟨false, st, hsame hcase, rfl, rfl, rfl, rfl, rfl, rfl, rfl, fun _ => Iff.rfl,
      ?_, ?_, fun _ => ⟨rfl, rfl⟩, hkeep st⟩
    · intro k sp sp' h1 h2
      rw [h1] at h2
      simp only [Option.some.injEq] at h2
      subst h2
      exact ⟨rfl, rfl, rfl, fun _ _ => rfl, fun _ => rfl⟩
    · intro k sp hp0 hreg _
      rcases hcase with h | h
      · exact absurd h hp0
      · rw [h] at hreg
        simp at hreg
  · have hp0 : p ≠ 0 := fun h => hcase (Or.inl h)
    cases hreg : mapFind p st.subpool_register with
    | none => exact absurd (Or.inr hreg) hcase
    | some k =>
      obtain ⟨_, sp, _, hsp, _⟩ := hI.reg_ok p k hreg
      have hP := hI.pool_inv k sp hsp
      obtain ⟨f1, f2, f3, f4⟩ := subpool_free_frame sp p hP.sorted
      refine ⟨(sp.Free p).1,
        { st with sub_pools := mapAssign k (sp.Free p).2 st.sub_pools },
        by simp [MemPool.Free, hp0, hreg, hsp], rfl, rfl, rfl, rfl, rfl, rfl, rfl,
        ?_, ?_, ?_, ?_, hkeep _⟩
      rotate_left 3
      · intro h
        rcases h with h | h
        · exact absurd h hp0
        · simp at h
      · intro k'
        simp only [mapFind_mapAssign]
        split_ifs with hk
        · subst hk; simp [hsp]
        · exact Iff.rfl
      · intro k' sp1 sp' h1 h2
        simp only [mapFind_mapAssign] at h2
        split_ifs at h2 with hk
        · subst hk
          rw [hsp] at h1
          simp only [Option.some.injEq] at h1 h2
          subst h1; subst h2
          exact ⟨f1, f2, f3, f4, fun hne => absurd rfl hne⟩
        · rw [h1] at h2
          simp only [Option.some.injEq] at h2
          subst h2
          exact ⟨rfl, rfl, rfl, fun _ _ => rfl, fun _ => rfl⟩
      · intro k' sp1 _ h1 h2
        simp only [Option.some.injEq] at h1
        subst h1
        rw [hsp] at h2
        simp only [Option.some.injEq] at h2
        subst h2
        exact ⟨rfl, mapFind_mapAssign_self _ _ _⟩

theorem C19_free_changes_one_flag_witness :
    ∃ b st', testPool1.Free 4096 = some (b, st') ∧
      st'.read_buffer = testPool1.read_buffer ∧
      st'.available_size = testPool1.available_size ∧
      st'.chunk_sizes = testPool1.chunk_sizes ∧
      st'.subpool_register = testPool1.subpool_register ∧
      st'.max_memory = testPool1.max_memory ∧ st'.alignment = testPool1.alignment ∧
      st'.buffer = testPool1.buffer ∧
      (∀ k, mapFind k st'.sub_pools = none ↔ mapFind k testPool1.sub_pools = none) ∧
      (∀ k sp sp', mapFind k testPool1.sub_pools = some sp →
        mapFind k st'.sub_pools = some sp' →
        sp'.chunk_count = sp.chunk_count ∧ sp'.chunk_size = sp.chunk_size ∧
        sp'.chunks.map Prod.fst = sp.chunks.map Prod.fst ∧
        (∀ q, q ≠ 4096 → mapFind q sp'.chunks = mapFind q sp.chunks) ∧
        (mapFind 4096 testPool1.subpool_register ≠ some k → sp' = sp)) ∧
      (∀ k sp, 4096 ≠ 0 → mapFind 4096 testPool1.subpool_register = some k →
        mapFind k testPool1.sub_pools = some sp →
        b = (sp.Free 4096).1 ∧ mapFind k st'.sub_pools = some (sp.Free 4096).2) ∧
      ((4096 = 0 ∨ mapFind 4096 testPool1.subpool_register = none) →
        b = false ∧ st' = testPool1) ∧
      (∀ size r st'', st'.Alloc size = some (r, st'') →
        ∀ q, mapFind q st'.subpool_register ≠ none →
          mapFind q st''.subpool_register ≠ none) :=
  C19_free_changes_one_flag 4096 testPool1_reachable

/-! ## The balance of the buffer -/

theorem Initialize_frame (st : MemPool) (sizes : List Nat) :
    (st.Initialize sizes).2.read_buffer = st.read_buffer ∧
      (st.Initialize sizes).2.available_size = st.available_size ∧
      (st.Initialize sizes).2.buffer = st.buffer ∧
      (st.Initialize sizes).2.max_memory = st.max_memory := by
  unfold MemPool.Initialize
  simp only
  split
  · exact ⟨rfl, rfl, rfl, rfl⟩
  · split_ifs <;> exact ⟨rfl, rfl, rfl, rfl⟩

theorem poolAlloc_frame {st st1 : MemPool} {c p : Nat}
    (h : st.poolAlloc c = some (p, st1)) : Frame st st1 := by
  unfold MemPool.poolAlloc at h
  split at h
  · simp at h
  · simp only [Option.some.injEq, Prod.mk.injEq] at h
    obtain ⟨_, rfl⟩ := h
    rfl

theorem Free_frame {st st' : MemPool} {ptr : Nat} {b : Bool}
    (h : st.Free ptr = some (b, st')) : Frame st st' := by
  unfold MemPool.Free at h
  split_ifs at h
  · simp only [Option.some.injEq, Prod.mk.injEq] at h
    obtain ⟨_, rfl⟩ := h
    rfl
  · split at h
    · simp only [Option.some.injEq, Prod.mk.injEq] at h
      obtain ⟨_, rfl⟩ := h
      rfl
    · split at h
      · simp at h
      · simp only [Option.some.injEq, Prod.mk.injEq] at h
        obtain ⟨_, rfl⟩ := h
        rfl

theorem balanced_of_frame {st st' : MemPool} (hB : Balanced st) (hF : Frame st st') :
    Balanced st' ∧ st'.available_size = st.available_size ∧
      st'.read_buffer = st.read_buffer := by
  unfold Balanced at *
  rw [hF]
  exact ⟨hB, rfl, rfl⟩

/-- The carving branch keeps the balance, never gives bytes back and never
moves `read_buffer` backwards. -/
theorem carve_balanced {st st' : MemPool} {c p : Nat} (hB : Balanced st)
    (h : st.carve c = some (p, st')) :
    Balanced st' ∧ st'.available_size ≤ st.available_size ∧
      st.read_buffer ≤ st'.read_buffer := by
  obtain ⟨hbal, hge, hmax⟩ := hB
  have hself : Balanced st ∧ st.available_size ≤ st.available_size ∧
      st.read_buffer ≤ st.read_buffer := ⟨⟨hbal, hge, hmax⟩, Nat.le_refl _, Nat.le_refl _⟩
  unfold MemPool.carve at h
  split_ifs at h
  · cases hal : std_align st.alignment c st.read_buffer st.available_size with
    | none =>
      simp only [hal, Option.some.injEq, Prod.mk.injEq] at h
      obtain ⟨_, rfl⟩ := h
      exact hself
    | some r =>
      obtain ⟨res, space⟩ := r
      obtain ⟨hres, hspace, hoff, hfit⟩ := std_align_some hal
      have hsub : (space + UINT32 - c) % UINT32 = space - c :=
        sub32_eq (by omega) (by omega)
      simp only [hal] at h
      split at h
      · simp at h
      · simp only [hsub] at h
        split_ifs at h <;>
        · simp only [Option.some.injEq, Prod.mk.injEq] at h
          obtain ⟨_, rfl⟩ := h
          refine ⟨⟨?_, ?_, hmax⟩, ?_, ?_⟩
          · show res + c + (space - c) = st.buffer + st.max_memory
            omega
          · show st.buffer ≤ res + c
            omega
          · show space - c ≤ st.available_size
            omega
          · show st.read_buffer ≤ res + c
            omega
  · simp only [Option.some.injEq, Prod.mk.injEq] at h
    obtain ⟨_, rfl⟩ := h
    exact hself

theorem allocLoop_balanced (size : Nat) : ∀ (cs : List Nat) (ptr : Nat) (st : MemPool)
    (p : Nat) (st' : MemPool), Balanced st →
    MemPool.allocLoop size cs ptr st = some (p, st') →
    Balanced st' ∧ st'.available_size ≤ st.available_size ∧
      st.read_buffer ≤ st'.read_buffer
  | [], ptr, st, p, st', hB, h => by
    simp only [MemPool.allocLoop, Option.some.injEq, Prod.mk.injEq] at h
    obtain ⟨_, rfl⟩ := h
    exact ⟨hB, Nat.le_refl _, Nat.le_refl _⟩
  | hd :: rest, ptr, st, p, st', hB, h => by
    simp only [MemPool.allocLoop] at h
    split_ifs at h with hfit
    · cases hpa : st.poolAlloc hd with
      | none => simp [hpa] at h
      | some r =>
        obtain ⟨p1, st1⟩ := r
        simp only [hpa] at h
        obtain ⟨hB1, ha1, hr1⟩ := balanced_of_frame hB (poolAlloc_frame hpa)
        split_ifs at h with hp1
        · obtain ⟨hB', ha', hr'⟩ := carve_balanced hB1 h
          exact ⟨hB', by omega, by omega⟩
        · obtain ⟨hB', ha', hr'⟩ := allocLoop_balanced size rest p1 st1 p st' hB1 h
          exact ⟨hB', by omega, by omega⟩
    · exact allocLoop_balanced size rest ptr st p st' hB h

theorem constructed_balanced {st : MemPool} (hC : Constructed st) : Balanced st := by
  induction hC with
  | new m al buf hm _ _ => exact ⟨rfl, Nat.le_refl _, hm⟩
  | init st sizes _ ih =>
    obtain ⟨h1, h2, h3, h4⟩ := Initialize_frame st sizes
    unfold Balanced at *
    rw [h1, h2, h3, h4]
    exact ih
  | alloc st st' size p _ ha ih =>
    exact (allocLoop_balanced size st.chunk_sizes 0 st p st' ih ha).1
  | free st st' ptr b _ hf ih =>
    exact (balanced_of_frame ih (Free_frame hf)).1

/-- C15: in every state that a constructed allocator reaches by `Initialize`,
`Alloc` and `Free`, the bytes between `buffer` and `read_buffer` plus
`available_size` are `max_memory`, and `read_buffer` lies between `buffer` and
`buffer + max_memory`. Whenever `std::align` succeeds there, the `uint32_t`
subtraction `available_size -= chunk_size` does not wrap. No call raises
`available_size` or moves `read_buffer` backwards. -/
theorem C15_buffer_balance {st : MemPool} (hC : Constructed st) :
    (st.read_buffer - st.buffer) + st.available_size = st.max_memory ∧
      st.buffer ≤ st.read_buffer ∧ st.read_buffer ≤ st.buffer + st.max_memory ∧
      (∀ c res space,
        std_align st.alignment c st.read_buffer st.available_size = some (res, space) →
        c ≤ space ∧ (space + UINT32 - c) % UINT32 = space - c) ∧
      (∀ size p st', st.Alloc size = some (p, st') →
        st'.available_size ≤ st.available_size ∧ st.read_buffer ≤ st'.read_buffer) ∧
      (∀ ptr b st', st.Free ptr = some (b, st') →
        st'.available_size = st.available_size ∧ st'.read_buffer = st.read_buffer) ∧
      (∀ sizes, (st.Initialize sizes).2.available_size = st.available_size ∧
        (st.Initialize sizes).2.read_buffer = st.read_buffer) := by
  have hB := constructed_balanced hC
  obtain ⟨hbal, hge, hmax⟩ := hB
  refine ⟨by omega, hge, by omega, ?_, ?_, ?_, ?_⟩
  · intro c res space hal
    obtain ⟨_, hspace, hoff, hfit⟩ := std_align_some hal
    exact ⟨by omega, sub32_eq (by omega) (by omega)⟩
  · intro size p st' ha
    exact (allocLoop_balanced size st.chunk_sizes 0 st p st' ⟨hbal, hge, hmax⟩ ha).2
  · intro ptr b st' hf
    exact (balanced_of_frame ⟨hbal, hge, hmax⟩ (Free_frame hf)).2
  · intro sizes
    obtain ⟨h1, h2, _, _⟩ := Initialize_frame st sizes
    exact ⟨h2, h1⟩

theorem testPool1_constructed : Constructed testPool1 := by
  have h0 := Constructed.init _ [64, 128, 256]
    (Constructed.new 2048 8 4096 (by decide) (by decide) (by decide))
  rw [testPool_init] at h0
  exact Constructed.alloc testPool testPool1 50 4096 h0 testPool1_alloc

theorem C15_buffer_balance_witness :
    (testPool1.read_buffer - testPool1.buffer) + testPool1.available_size =
        testPool1.max_memory ∧
      testPool1.buffer ≤ testPool1.read_buffer ∧
      testPool1.read_buffer ≤ testPool1.buffer + testPool1.max_memory ∧
      (∀ c res space,
        std_align testPool1.alignment c testPool1.read_buffer testPool1.available_size =
          some (res, space) →
        c ≤ space ∧ (space + UINT32 - c) % UINT32 = space - c) ∧
      (∀ size p st', testPool1.Alloc size = some (p, st') →
        st'.available_size ≤ testPool1.available_size ∧
          testPool1.read_buffer ≤ st'.read_buffer) ∧
      (∀ ptr b st', testPool1.Free ptr = some (b, st') →
        st'.available_size = testPool1.available_size ∧
          st'.read_buffer = testPool1.read_buffer) ∧
      (∀ sizes, (testPool1.Initialize sizes).2.available_size = testPool1.available_size ∧
        (testPool1.Initialize sizes).2.read_buffer = testPool1.read_buffer) :=
  C15_buffer_balance testPool1_constructed

/-! ## The small allocator -/

theorem smallPool_init :
    (MemPool.new 24 8 4096).Initialize [8, 16] = (true, smallPool) := by decide

theorem smallPool_reachable : Reachable smallPool [] :=
  Reachable.init 24 8 4096 [8, 16] smallPool (by decide) (by decide) (by decide)
    smallPool_init

theorem smallPool1_alloc : smallPool.Alloc 16 = some (4096, smallPool1) := by decide

theorem smallPool1_reachable : Reachable smallPool1 [4096] :=
  Reachable.alloc smallPool smallPool1 [] 16 4096 smallPool_reachable smallPool1_alloc

theorem smallPool2_alloc : smallPool1.Alloc 8 = some (4112, smallPool2) := by decide

theorem smallPool2_reachable : Reachable smallPool2 [4112, 4096] :=
  Reachable.alloc smallPool1 smallPool2 [4096] 8 4112 smallPool1_reachable smallPool2_alloc

theorem smallPool3_free : smallPool2.Free 4112 = some (true, smallPool3) := by decide

theorem smallPool3_reachable : Reachable smallPool3 [4096] :=
  Reachable.free smallPool2 smallPool3 [4112, 4096] 4112 true smallPool2_reachable
    smallPool3_free

/-- C14 (the code departs from the claim): in the reachable state `smallPool3`
no byte is available and the pool of 8 holds the free chunk 4112. `Alloc(8)`
marks that chunk used, does not leave the loop, goes on to the chunk size 16,
finds no free chunk there and no memory to carve, and returns null: the call
fails and the chunk 4112 is marked used after it. -/
theorem C14_failed_alloc_marks_chunk_used :
    Reachable smallPool3 [4096] ∧
      mapFind 8 smallPool3.sub_pools =
        some { chunk_size := 8, chunk_count := 1, chunks := [(4112, true)] } ∧
      smallPool3.Alloc 8 = some (0, smallPool2) ∧
      mapFind 8 smallPool2.sub_pools =
        some { chunk_size := 8, chunk_count := 1, chunks := [(4112, false)] } :=
  ⟨smallPool3_reachable, by decide, by decide, by decide⟩

/-! ## The pools are those of the chunk sizes -/

theorem mapFind_mapAssign_keep {β : Type} {c k : Nat} {v v' : β} {m : List (Nat × β)}
    (hc : mapFind c m = some v) (h : mapFind k (mapAssign c v' m) ≠ none) :
    mapFind k m ≠ none := by
  rw [mapFind_mapAssign] at h
  split_ifs at h with hk
  · subst hk; simp [hc]
  · exact h

theorem poolAlloc_pools {st st1 : MemPool} {c p : Nat}
    (h : st.poolAlloc c = some (p, st1)) (k : Nat)
    (hk : mapFind k st1.sub_pools ≠ none) : mapFind k st.sub_pools ≠ none := by
  unfold MemPool.poolAlloc at h
  cases hsp : mapFind c st.sub_pools with
  | none => simp [hsp] at h
  | some sp =>
    simp only [hsp, Option.some.injEq, Prod.mk.injEq] at h
    obtain ⟨_, rfl⟩ := h
    exact mapFind_mapAssign_keep hsp hk

theorem carve_pools {st st' : MemPool} {c p : Nat}
    (h : st.carve c = some (p, st')) (k : Nat)
    (hk : mapFind k st'.sub_pools ≠ none) : mapFind k st.sub_pools ≠ none := by
  unfold MemPool.carve at h
  split_ifs at h
  · split at h
    · cases hsp : mapFind c st.sub_pools with
      | none => simp [hsp] at h
      | some sp =>
        simp only [hsp] at h
        split_ifs at h <;>
        · simp only [Option.some.injEq, Prod.mk.injEq] at h
          obtain ⟨_, rfl⟩ := h
          exact mapFind_mapAssign_keep hsp hk
    · simp only [Option.some.injEq, Prod.mk.injEq] at h
      obtain ⟨_, rfl⟩ := h
      exact hk
  · simp only [Option.some.injEq, Prod.mk.injEq] at h
    obtain ⟨_, rfl⟩ := h
    exact hk

theorem allocLoop_pools (size : Nat) : ∀ (cs : List Nat) (ptr : Nat) (st : MemPool)
    (p : Nat) (st' : MemPool), MemPool.allocLoop size cs ptr st = some (p, st') →
    ∀ k, mapFind k st'.sub_pools ≠ none → mapFind k st.sub_pools ≠ none
  | [], ptr, st, p, st', h => by
    simp only [MemPool.allocLoop, Option.some.injEq, Prod.mk.injEq] at h
    obtain ⟨_, rfl⟩ := h
    exact fun k hk => hk
  | hd :: rest, ptr, st, p, st', h => by
    simp only [MemPool.allocLoop] at h
    split_ifs at h with hfit
    · cases hpa : st.poolAlloc hd with
      | none => simp [hpa] at h
      | some r =>
        obtain ⟨p1, st1⟩ := r
        simp only [hpa] at h
        split_ifs at h with hp1
        · exact fun k hk => poolAlloc_pools hpa k (carve_pools h k hk)
        · exact fun k hk => poolAlloc_pools hpa k
            (allocLoop_pools size rest p1 st1 p st' h k hk)
    · exact allocLoop_pools size rest ptr st p st' h

theorem Free_pools {st st' : MemPool} {ptr : Nat} {b : Bool}
    (h : st.Free ptr = some (b, st')) (k : Nat)
    (hk : mapFind k st'.sub_pools ≠ none) : mapFind k st.sub_pools ≠ none := by
  unfold MemPool.Free at h
  split_ifs at h
  · simp only [Option.some.injEq, Prod.mk.injEq] at h
    obtain ⟨_, rfl⟩ := h
    exact hk
  · split at h
    · simp only [Option.some.injEq, Prod.mk.injEq] at h
      obtain ⟨_, rfl⟩ := h
      exact hk
    · rename_i k0 _
      cases hsp : mapFind k0 st.sub_pools with
      | none => simp [hsp] at h
      | some sp =>
        simp only [hsp, Option.some.injEq, Prod.mk.injEq] at h
        obtain ⟨_, rfl⟩ := h
        exact mapFind_mapAssign_keep hsp hk

theorem mem_initPools : ∀ (cs : List Nat) (m : List (Nat × SubPool)) (e : Nat × SubPool),
    e ∈ cs.foldl (fun m c => mapInsert c (SubPool.new c) m) m → e ∈ m ∨ e.1 ∈ cs
  | [], m, e, h => Or.inl h
  | c0 :: rest, m, e, h => by
    simp only [List.foldl_cons] at h
    rcases mem_initPools rest _ e h with h1 | h1
    · rcases mem_mapInsert h1 with h2 | h2
      · right; rw [h2]; exact List.mem_cons_self _ _
      · exact Or.inl h2
    · exact Or.inr (List.mem_cons_of_mem _ h1)

/-- The pools of a fresh allocator after a successful `Initialize`: one per
chunk size, each without chunks. -/
theorem Initialize_pools {p_max_memory p_alignment buf : Nat} {sizes : List Nat}
    {st : MemPool}
    (h : (MemPool.new p_max_memory p_alignment buf).Initialize sizes = (true, st)) :
    ∀ k sp, mapFind k st.sub_pools = some sp → k ∈ st.chunk_sizes ∧ sp = SubPool.new k := by
  unfold MemPool.Initialize at h
  simp only at h
  split at h
  · simp at h
  · split_ifs at h with h1
    · simp at h
    simp only [Prod.mk.injEq, true_and] at h
    subst h
    intro k sp hk
    have hmem := mapFind_some_mem hk
    obtain ⟨_, i2, _⟩ := initPools_spec
      (unique (sizes.insertionSort (fun a b => a ≤ b))) []
      (by simp [KeysSorted]) (by simp)
    refine ⟨?_, i2 _ hmem⟩
    rcases mem_initPools _ _ _ hmem with h2 | h2
    · simp [MemPool.new] at h2
    · exact h2

theorem reachable_poolKeys {st : MemPool} {live : List Nat} (h : Reachable st live) :
    PoolKeys st := by
  induction h with
  | init m al buf sizes st _ _ _ hinit =>
    exact fun k sp hk => (Initialize_pools hinit k sp hk).1
  | alloc st st' live size p _ ha ih =>
    intro k sp hk
    have h1 := allocLoop_pools size st.chunk_sizes 0 st p st' ha k (by simp [hk])
    cases hsp : mapFind k st.sub_pools with
    | none => exact absurd hsp h1
    | some sp0 =>
      rw [(Alloc_config ha).2.2.1]
      exact ih k sp0 hsp
  | free st st' live ptr b _ hf ih =>
    intro k sp hk
    have h1 := Free_pools hf k (by simp [hk])
    cases hsp : mapFind k st.sub_pools with
    | none => exact absurd hsp h1
    | some sp0 =>
      have hcs : st'.chunk_sizes = st.chunk_sizes := by rw [Free_frame hf]
      rw [hcs]
      exact ih k sp0 hsp

/-- C16: in a reachable state whose chunk sizes are all positive, an address
registered in `subpool_register` is a key of the chunk map of the pool it is
registered to and of no other pool, and every address in the chunk map of a
pool is registered, to that pool. -/
theorem C16_register_matches_pools {st : MemPool} {live : List Nat}
    (hR : Reachable st live) (hpos : ∀ c ∈ st.chunk_sizes, 0 < c) :
    (∀ p k, mapFind p st.subpool_register = some k →
      (∃ sp f, mapFind k st.sub_pools = some sp ∧ mapFind p sp.chunks = some f) ∧
      ∀ k' sp' f', mapFind k' st.sub_pools = some sp' →
        mapFind p sp'.chunks = some f' → k' = k) ∧
    (∀ k sp p f, mapFind k st.sub_pools = some sp → mapFind p sp.chunks = some f →
      mapFind p st.subpool_register = some k) := by
  have hI := (reachable_inv hR).1
  have hK := reachable_poolKeys hR
  have hconv : ∀ k sp p f, mapFind k st.sub_pools = some sp →
      mapFind p sp.chunks = some f → mapFind p st.subpool_register = some k := by
    intro k sp p f hsp hf
    obtain ⟨k', hk', hkk⟩ := (hI.pool_inv k sp hsp).registered p f (mapFind_some_mem hf)
    rw [hk', hkk (hpos k (hK k sp hsp))]
  refine ⟨?_, hconv⟩
  intro p k hreg
  refine ⟨(hI.reg_ok p k hreg).2, ?_⟩
  intro k' sp' f' hsp' hf'
  have := hconv k' sp' p f' hsp' hf'
  rw [hreg] at this
  exact (Option.some.inj this).symm

theorem C16_register_matches_pools_witness :
    (∀ p k, mapFind p smallPool2.subpool_register = some k →
      (∃ sp f, mapFind k smallPool2.sub_pools = some sp ∧ mapFind p sp.chunks = some f) ∧
      ∀ k' sp' f', mapFind k' smallPool2.sub_pools = some sp' →
        mapFind p sp'.chunks = some f' → k' = k) ∧
    (∀ k sp p f, mapFind k smallPool2.sub_pools = some sp →
      mapFind p sp.chunks = some f → mapFind p smallPool2.subpool_register = some k) :=
  C16_register_matches_pools smallPool2_reachable (by decide)

/-! ## The chunks do not overlap -/

theorem poolAlloc_chunkAt {st st1 : MemPool} {c p : Nat}
    (h : st.poolAlloc c = some (p, st1)) {k a : Nat} (hk : ChunkAt st1 k a) :
    ChunkAt st k a := by
  unfold MemPool.poolAlloc at h
  cases hsp : mapFind c st.sub_pools with
  | none => simp [hsp] at h
  | some sp =>
    simp only [hsp, Option.some.injEq, Prod.mk.injEq] at h
    obtain ⟨_, rfl⟩ := h
    obtain ⟨sp1, f, h1, h2⟩ := hk
    simp only [mapFind_mapAssign] at h1
    split_ifs at h1 with hkc
    · simp only [Option.some.injEq] at h1
      subst h1; subst hkc
      obtain ⟨f', hf'⟩ := scanFree_mem_key h2
      exact ⟨sp, f', hsp, hf'⟩
    · exact ⟨sp1, f, h1, h2⟩

theorem Free_chunkAt {st st' : MemPool} {ptr : Nat} {b : Bool}
    (h : st.Free ptr = some (b, st')) {k a : Nat} (hk : ChunkAt st' k a) :
    ChunkAt st k a := by
  unfold MemPool.Free at h
  split_ifs at h
  · simp only [Option.some.injEq, Prod.mk.injEq] at h
    obtain ⟨_, rfl⟩ := h
    exact hk
  · split at h
    · simp only [Option.some.injEq, Prod.mk.injEq] at h
      obtain ⟨_, rfl⟩ := h
      exact hk
    · rename_i k0 _
      cases hsp : mapFind k0 st.sub_pools with
      | none => simp [hsp] at h
      | some sp =>
        simp only [hsp, Option.some.injEq, Prod.mk.injEq] at h
        obtain ⟨_, rfl⟩ := h
        obtain ⟨sp1, f, h1, h2⟩ := hk
        simp only [mapFind_mapAssign] at h1
        split_ifs at h1 with hkc
        · simp only [Option.some.injEq] at h1
          subst h1; subst hkc
          unfold SubPool.Free at h2
          cases hfl : mapFind ptr sp.chunks with
          | none =>
            simp only [hfl] at h2
            exact ⟨sp, f, hsp, h2⟩
          | some g =>
            cases g with
            | true =>
              simp only [hfl, if_true] at h2
              exact ⟨sp, f, hsp, h2⟩
            | false =>
              simp only [hfl] at h2
              rcases mem_mapAssign h2 with h3 | h3
              · rw [(Prod.mk.inj h3).1]
                exact ⟨sp, false, hsp, mapFind_some_mem hfl⟩
              · exact ⟨sp, f, hsp, h3⟩
        · exact ⟨sp1, f, h1, h2⟩

theorem carve_chunkAt {st st' : MemPool} {c p : Nat}
    (h : st.carve c = some (p, st')) {k a : Nat} (hk : ChunkAt st' k a) :
    ChunkAt st k a ∨
      (k = c ∧ a = st.read_buffer + alignOffset st.alignment st.read_buffer) := by
  unfold MemPool.carve at h
  split_ifs at h
  · cases hal : std_align st.alignment c st.read_buffer st.available_size with
    | none =>
      simp only [hal, Option.some.injEq, Prod.mk.injEq] at h
      obtain ⟨_, rfl⟩ := h
      exact Or.inl hk
    | some r =>
      obtain ⟨res, space⟩ := r
      obtain ⟨hres, _, _, _⟩ := std_align_some hal
      simp only [hal] at h
      cases hsp : mapFind c st.sub_pools with
      | none => simp [hsp] at h
      | some sp =>
        simp only [hsp] at h
        have key : ∀ sp1 f, mapFind k (mapAssign c
            (((sp.AddNewChunk res).2).Alloc).2 st.sub_pools) = some sp1 →
            (a, f) ∈ sp1.chunks → ChunkAt st k a ∨
              (k = c ∧ a = st.read_buffer + alignOffset st.alignment st.read_buffer) := by
          intro sp1 f h1 h2
          simp only [mapFind_mapAssign] at h1
          split_ifs at h1 with hkc
          · simp only [Option.some.injEq] at h1
            subst h1
            have h3 : (a, f) ∈
                (SubPool.scanFree (mapInsert res true sp.chunks)).2 := h2
            obtain ⟨f', hf'⟩ := scanFree_mem_key h3
            rcases mem_mapInsert hf' with h4 | h4
            · have h5 : a = res := (Prod.mk.inj h4).1
              exact Or.inr ⟨hkc, by rw [h5, hres]⟩
            · exact Or.inl ⟨sp, f', by rw [hkc]; exact hsp, h4⟩
          · exact Or.inl ⟨sp1, f, h1, h2⟩
        split_ifs at h <;>
        · simp only [Option.some.injEq, Prod.mk.injEq] at h
          obtain ⟨_, rfl⟩ := h
          obtain ⟨sp1, f, h1, h2⟩ := hk
          exact key sp1 f h1 h2
  · simp only [Option.some.injEq, Prod.mk.injEq] at h
    obtain ⟨_, rfl⟩ := h
    exact Or.inl hk

/-- A call of `MemPool::Alloc` adds at most one chunk, at or after the
`read_buffer` of the state it starts from. -/
theorem allocLoop_chunkAt (size : Nat) : ∀ (cs : List Nat) (ptr : Nat) (st : MemPool)
    (p : Nat) (st' : MemPool), MemPool.allocLoop size cs ptr st = some (p, st') →
    ∃ c, ∀ k a, ChunkAt st' k a → ChunkAt st k a ∨
      (k = c ∧ a = st.read_buffer + alignOffset st.alignment st.read_buffer)
  | [], ptr, st, p, st', h => by
    simp only [MemPool.allocLoop, Option.some.injEq, Prod.mk.injEq] at h
    obtain ⟨_, rfl⟩ := h
    exact ⟨0, fun k a hk => Or.inl hk⟩
  | hd :: rest, ptr, st, p, st', h => by
    simp only [MemPool.allocLoop] at h
    split_ifs at h with hfit
    · cases hpa : st.poolAlloc hd with
      | none => simp [hpa] at h
      | some r =>
        obtain ⟨p1, st1⟩ := r
        simp only [hpa] at h
        have hF := poolAlloc_frame hpa
        have hrb : st1.read_buffer = st.read_buffer := by rw [hF]
        have hal : st1.alignment = st.alignment := by rw [hF]
        split_ifs at h with hp1
        · refine ⟨hd, fun k a hk => ?_⟩
          rcases carve_chunkAt h hk with h1 | h1
          · exact Or.inl (poolAlloc_chunkAt hpa h1)
          · rw [hrb, hal] at h1
            exact Or.inr h1
        · obtain ⟨c, hc⟩ := allocLoop_chunkAt size rest p1 st1 p st' h
          refine ⟨c, fun k a hk => ?_⟩
          rcases hc k a hk with h1 | h1
          · exact Or.inl (poolAlloc_chunkAt hpa h1)
          · rw [hrb, hal] at h1
            exact Or.inr h1
    · exact allocLoop_chunkAt size rest ptr st p st' h

theorem inv_chunkAt_bounds {st : MemPool} (hI : Inv st) {k a : Nat}
    (h : ChunkAt st k a) : st.buffer ≤ a ∧ a + k ≤ st.read_buffer := by
  obtain ⟨sp, f, h1, h2⟩ := h
  exact (hI.pool_inv k sp h1).bounds a f h2

theorem reachable_apart {st : MemPool} {live : List Nat} (h : Reachable st live) :
    ChunksApart st := by
  induction h with
  | init m al buf sizes st _ _ _ hinit =>
    intro k a k' a' ⟨sp, f, h1, h2⟩
    rw [(Initialize_pools hinit k sp h1).2] at h2
    simp [SubPool.new] at h2
  | alloc st st' live size p hR ha ih =>
    have hI := (reachable_inv hR).1
    obtain ⟨c, hc⟩ := allocLoop_chunkAt size st.chunk_sizes 0 st p st' ha
    intro k a k' a' h1 h2 hne
    rcases hc k a h1 with o1 | ⟨n1, n2⟩
    · rcases hc k' a' h2 with o2 | ⟨m1, m2⟩
      · exact ih k a k' a' o1 o2 hne
      · have := (inv_chunkAt_bounds hI o1).2
        left; omega
    · rcases hc k' a' h2 with o2 | ⟨m1, m2⟩
      · have := (inv_chunkAt_bounds hI o2).2
        right; omega
      · exfalso
        rcases hne with hne | hne
        · exact hne (by rw [n2, m2])
        · exact hne (by rw [n1, m1])
  | free st st' live ptr b _ hf ih =>
    intro k a k' a' h1 h2 hne
    exact ih k a k' a' (Free_chunkAt hf h1) (Free_chunkAt hf h2) hne

/-! ## Alloc hands out no live address -/

theorem poolAlloc_found {st st1 : MemPool} {c p : Nat}
    (h : st.poolAlloc c = some (p, st1)) (hp : p ≠ 0) :
    ∃ sp, mapFind c st.sub_pools = some sp ∧ (p, true) ∈ sp.chunks := by
  unfold MemPool.poolAlloc at h
  cases hsp : mapFind c st.sub_pools with
  | none => simp [hsp] at h
  | some sp =>
    simp only [hsp, Option.some.injEq, Prod.mk.injEq] at h
    obtain ⟨h1, _⟩ := h
    refine ⟨sp, rfl, ?_⟩
    rcases scanFree_cases sp.chunks with ⟨_, h2⟩ | ⟨h2, _⟩
    · exfalso
      apply hp
      rw [← h1]
      simp [SubPool.Alloc, h2]
    · rw [← h1]
      exact h2

theorem liveOK_chunk_below {st : MemPool} {live : List Nat} (hI : Inv st)
    (hL : LiveOK st live) (hpos : ∀ c ∈ st.chunk_sizes, 0 < c) {q : Nat}
    (hq : q ∈ live) : q < st.read_buffer := by
  obtain ⟨k, sp, h1, h2, h3⟩ := hL q hq
  have hb := (hI.pool_inv k sp h2).bounds q false (mapFind_some_mem h3)
  have := hpos k (hI.reg_ok q k h1).1
  omega

theorem allocLoop_not_live (size : Nat) (live : List Nat) : ∀ (cs : List Nat)
    (ptr : Nat) (st : MemPool) (p : Nat) (st' : MemPool), Inv st → LiveOK st live →
    (∀ c ∈ cs, c ∈ st.chunk_sizes) → (∀ c ∈ st.chunk_sizes, 0 < c) →
    MemPool.allocLoop size cs ptr st = some (p, st') → p ≠ 0 → p = ptr ∨ p ∉ live
  | [], ptr, st, p, st', _, _, _, _, h, _ => by
    simp only [MemPool.allocLoop, Option.some.injEq, Prod.mk.injEq] at h
    exact Or.inl h.1.symm
  | hd :: rest, ptr, st, p, st', hI, hL, hsub, hpos, h, hp => by
    simp only [MemPool.allocLoop] at h
    split_ifs at h with hfit
    · cases hpa : st.poolAlloc hd with
      | none => simp [hpa] at h
      | some r =>
        obtain ⟨p1, st1⟩ := r
        simp only [hpa] at h
        obtain ⟨hI1, hF1, hL1, hz, _⟩ := poolAlloc_spec hI hpa
        have hcs1 : st1.chunk_sizes = st.chunk_sizes := by rw [hF1]
        have hhd := hsub hd (List.mem_cons_self _ _)
        split_ifs at h with hp1
        · right
          obtain ⟨hst, sp, hsp, hno⟩ := hz hp1
          subst hst
          by_cases hroom : st1.available_size = 0 ∨
              st1.available_size < alignOffset st1.alignment st1.read_buffer + hd
          · rw [carve_no_room hroom] at h
            simp only [Option.some.injEq, Prod.mk.injEq] at h
            exact absurd h.1.symm hp
          · obtain ⟨st2, h2, _⟩ := carve_fresh hI hsp hno (hpos hd hhd) hroom
            rw [h2] at h
            simp only [Option.some.injEq, Prod.mk.injEq] at h
            intro hlive
            have := liveOK_chunk_below hI hL hpos hlive
            omega
        · have hrec := allocLoop_not_live size live rest p1 st1 p st' hI1 (hL1 live hL)
            (fun c hc => by rw [hcs1]; exact hsub c (List.mem_cons_of_mem _ hc))
            (fun c hc => hpos c (by rw [← hcs1]; exact hc)) h hp
          rcases hrec with h1 | h1
          · right
            subst h1
            obtain ⟨sp, hsp, hmem⟩ := poolAlloc_found hpa hp1
            intro hlive
            obtain ⟨k, spk, g1, g2, g3⟩ := hL p hlive
            have hP := hI.pool_inv hd sp hsp
            obtain ⟨k', hk', hkk⟩ := hP.registered p true hmem
            have hk : k = hd := by
              rw [g1] at hk'
              rw [← hkk (hpos hd hhd)]
              exact Option.some.inj hk'
            subst hk
            rw [hsp] at g2
            simp only [Option.some.injEq] at g2
            subst g2
            rw [mapFind_of_mem hP.sorted hmem] at g3
            simp at g3
          · exact Or.inr h1
    · exact allocLoop_not_live size live rest ptr st p st' hI hL
        (fun c hc => hsub c (List.mem_cons_of_mem _ hc)) hpos h hp

/-- C17: in a reachable state whose chunk sizes are all positive, any two
distinct chunks occupy byte ranges `[a, a + chunk size)` that do not meet, all
between `buffer` and `read_buffer`; `Alloc` returns no address that is live;
and the ranges of two distinct live addresses do not meet. -/
theorem C17_chunks_disjoint {st : MemPool} {live : List Nat} (hR : Reachable st live)
    (hpos : ∀ c ∈ st.chunk_sizes, 0 < c) :
    (∀ k a k' a', ChunkAt st k a → ChunkAt st k' a' → (a ≠ a' ∨ k ≠ k') →
      a + k ≤ a' ∨ a' + k' ≤ a) ∧
    (∀ k a, ChunkAt st k a → st.buffer ≤ a ∧ a + k ≤ st.read_buffer) ∧
    (∀ size p st', st.Alloc size = some (p, st') → p ≠ 0 → p ∉ live) ∧
    (∀ p q kp kq, p ∈ live → q ∈ live → p ≠ q →
      mapFind p st.subpool_register = some kp → mapFind q st.subpool_register = some kq →
      p + kp ≤ q ∨ q + kq ≤ p) := by
  obtain ⟨hI, hL⟩ := reachable_inv hR
  have hA := reachable_apart hR
  refine ⟨hA, fun k a h => inv_chunkAt_bounds hI h, ?_, ?_⟩
  · intro size p st' ha hp
    rcases allocLoop_not_live size live st.chunk_sizes 0 st p st' hI hL
      (fun c hc => hc) hpos ha hp with h1 | h1
    · exact absurd h1 hp
    · exact h1
  · intro p q kp kq hp hq hne hkp hkq
    obtain ⟨k1, sp1, a1, a2, a3⟩ := hL p hp
    obtain ⟨k2, sp2, b1, b2, b3⟩ := hL q hq
    rw [hkp] at a1
    rw [hkq] at b1
    have e1 : kp = k1 := Option.some.inj a1
    have e2 : kq = k2 := Option.some.inj b1
    subst e1; subst e2
    exact hA kp p kq q ⟨sp1, false, a2, mapFind_some_mem a3⟩
      ⟨sp2, false, b2, mapFind_some_mem b3⟩ (Or.inl hne)

theorem C17_chunks_disjoint_witness :
    (∀ k a k' a', ChunkAt smallPool2 k a → ChunkAt smallPool2 k' a' → (a ≠ a' ∨ k ≠ k') →
      a + k ≤ a' ∨ a' + k' ≤ a) ∧
    (∀ k a, ChunkAt smallPool2 k a →
      smallPool2.buffer ≤ a ∧ a + k ≤ smallPool2.read_buffer) ∧
    (∀ size p st', smallPool2.Alloc size = some (p, st') → p ≠ 0 → p ∉ [4112, 4096]) ∧
    (∀ p q kp kq, p ∈ [4112, 4096] → q ∈ [4112, 4096] → p ≠ q →
      mapFind p smallPool2.subpool_register = some kp →
      mapFind q smallPool2.subpool_register = some kq →
      p + kp ≤ q ∨ q + kq ≤ p) :=
  C17_chunks_disjoint smallPool2_reachable (by decide)

/-! ## Filling the buffer with chunks of one size -/

theorem alignOffset_zero_of_multiple (n x : Nat) (h : x % 2 ^ n = 0) :
    alignOffset (2 ^ n) x = 0 := by
  unfold alignOffset
  rw [Nat.and_pow_two_sub_one_eq_mod, if_pos h]

theorem scanFree_insert_all_used (k : Nat) : ∀ (l : List (Nat × Bool)),
    (∀ e ∈ l, e.2 = false) →
    ∀ e ∈ (SubPool.scanFree (mapInsert k true l)).2, e.2 = false
  | [], _ => by
    intro e he
    simp only [mapInsert, SubPool.scanFree, if_true, List.mem_singleton] at he
    rw [he]
  | (a, f) :: rest, h => by
    have hf : f = false := h (a, f) (List.mem_cons_self _ _)
    subst hf
    have hrest : ∀ e ∈ rest, e.2 = false := fun e he => h e (List.mem_cons_of_mem _ he)
    simp only [mapInsert]
    split_ifs with h1 h2
    · intro e he
      simp only [SubPool.scanFree, if_true] at he
      rcases List.mem_cons.mp he with h3 | h3
      · rw [h3]
      · exact h e h3
    · intro e he
      rw [scanFree_nofree h] at he
      exact h e he
    · intro e he
      simp only [SubPool.scanFree, Bool.false_eq_true, if_false] at he
      rcases List.mem_cons.mp he with h3 | h3
      · rw [h3]
      · exact scanFree_insert_all_used k rest hrest e h3

/-- When the carving branch is entered with a pool without free chunk, it
leaves the pool without free chunk. -/
theorem carve_pool_flags {st st' : MemPool} {c p : Nat} {sp : SubPool}
    (hsp : mapFind c st.sub_pools = some sp) (hno : ∀ e ∈ sp.chunks, e.2 = false)
    (h : st.carve c = some (p, st')) :
    ∃ sp', mapFind c st'.sub_pools = some sp' ∧ ∀ e ∈ sp'.chunks, e.2 = false := by
  unfold MemPool.carve at h
  split_ifs at h
  · split at h
    · simp only [hsp] at h
      split_ifs at h <;>
      · simp only [Option.some.injEq, Prod.mk.injEq] at h
        obtain ⟨_, rfl⟩ := h
        exact ⟨_, mapFind_mapAssign_self _ _ _,
          scanFree_insert_all_used _ sp.chunks hno⟩
    · simp only [Option.some.injEq, Prod.mk.injEq] at h
      obtain ⟨_, rfl⟩ := h
      exact ⟨sp, hsp, hno⟩
  · simp only [Option.some.injEq, Prod.mk.injEq] at h
    obtain ⟨_, rfl⟩ := h
    exact ⟨sp, hsp, hno⟩

/-- What a successful `Initialize` leaves in a fresh allocator. -/
theorem Initialize_fresh {p_max_memory p_alignment buf : Nat} {sizes : List Nat}
    {st : MemPool}
    (h : (MemPool.new p_max_memory p_alignment buf).Initialize sizes = (true, st)) :
    st.alignment = p_alignment ∧ st.read_buffer = buf ∧
      st.available_size = p_max_memory ∧ ∀ c ∈ st.chunk_sizes, c % p_alignment = 0 := by
  unfold MemPool.Initialize at h
  simp only at h
  split at h
  · simp at h
  · rename_i sum hsum
    split_ifs at h with h1
    · simp at h
    simp only [Prod.mk.injEq, true_and] at h
    subst h
    refine ⟨rfl, rfl, rfl, ?_⟩
    intro c hc
    by_contra hne
    have hx : checkSizes p_alignment
        (unique (sizes.insertionSort (fun a b => a ≤ b))) 0 = none :=
      (checkSizes_none_iff _ _ 0).mpr ⟨c, hc, hne⟩
    exact absurd (hsum.symm.trans hx) (by simp)

/-- Consecutive calls `Alloc(c)` on a state whose `read_buffer` is a multiple
of the alignment and whose pool of `c` has no free chunk: as long as the bytes
suffice, each call returns `read_buffer` and moves it on by `c`. -/
theorem alloc_round (n c : Nat) (hc0 : 0 < c) (hcal : c % 2 ^ n = 0) : ∀ (i : Nat)
    (st : MemPool) (r a : Nat), Inv st → st.alignment = 2 ^ n → c ∈ st.chunk_sizes →
    (∃ sp, mapFind c st.sub_pools = some sp ∧ ∀ e ∈ sp.chunks, e.2 = false) →
    st.read_buffer = r → r % 2 ^ n = 0 → st.available_size = a → i * c ≤ a →
    ∃ st', st.run (List.replicate i (Call.alloc c)) =
        some ((List.range i).map (fun j => Ret.addr (r + j * c)), st') ∧
      Inv st' ∧ st'.read_buffer = r + i * c ∧ st'.available_size = a - i * c ∧
      (∃ sp', mapFind c st'.sub_pools = some sp' ∧ ∀ e ∈ sp'.chunks, e.2 = false) ∧
      st'.chunk_sizes = st.chunk_sizes
  | 0, st, r, a, hI, _, _, hpool, hr, _, ha, _ => by
    refine ⟨st, rfl, hI, ?_, ?_, hpool, rfl⟩
    · simp [hr]
    · simp [ha]
  | i + 1, st, r, a, hI, hal, hc, hpool, hr, hrm, ha, hle => by
    obtain ⟨sp, hsp, hno⟩ := hpool
    have hmul : (i + 1) * c = i * c + c := Nat.succ_mul i c
    have hoff : alignOffset st.alignment st.read_buffer = 0 := by
      rw [hal, hr]
      exact alignOffset_zero_of_multiple n r hrm
    have hroom : ¬ (st.available_size = 0 ∨
        st.available_size < alignOffset st.alignment st.read_buffer + c) := by
      rw [hoff, ha]
      omega
    have hloop : st.Alloc c = st.carve c :=
      allocLoop_smallest_fit c c st.chunk_sizes 0 st hI.sizes_sorted hc (Nat.le_refl _)
        (fun c' _ h => h) (poolAlloc_nofree hI hsp hno)
    obtain ⟨st1, h1, _, _, hrb1, hav1, _, _, _⟩ := carve_fresh hI hsp hno hc0 hroom
    rw [hoff, hr] at h1 hrb1
    rw [hoff, ha] at hav1
    obtain ⟨hI1, _, _, _⟩ := carve_spec hI hc hsp hno h1
    obtain ⟨_, hal1, hcs1, _⟩ := carve_config h1
    have hrm1 : (r + 0 + c) % 2 ^ n = 0 := by
      rw [Nat.add_zero, Nat.add_mod, hrm, hcal]
      simp
    obtain ⟨st2, h2, hI2, hrb2, hav2, hpool2, hcs2⟩ :=
      alloc_round n c hc0 hcal i st1 (r + 0 + c) (a - 0 - c) hI1 (by rw [hal1, hal])
        (by rw [hcs1]; exact hc) (carve_pool_flags hsp hno h1) hrb1 hrm1 hav1 (by omega)
    refine ⟨st2, ?_, hI2, by rw [hrb2, hmul]; omega, by rw [hav2, hmul]; omega, hpool2,
      hcs2.trans hcs1⟩
    rw [List.replicate_succ]
    simp only [MemPool.run, hloop, h1, h2, Option.some.injEq, Prod.mk.injEq, and_true]
    rw [List.range_succ_eq_map, List.map_cons, List.map_map]
    refine congrArg₂ List.cons (by simp) (List.map_congr_left ?_)
    intro j _
    simp only [Function.comp_apply, Nat.succ_eq_add_one, Ret.addr.injEq]
    rw [Nat.succ_mul]
    omega

/-- A series of calls keeps the invariant and never raises `available_size`. -/
theorem run_inv : ∀ (calls : List Call) (st : MemPool) (rets : List Ret)
    (st' : MemPool), Inv st → st.run calls = some (rets, st') →
    Inv st' ∧ st'.available_size ≤ st.available_size
  | [], st, rets, st', hI, h => by
    simp only [MemPool.run, Option.some.injEq, Prod.mk.injEq] at h
    obtain ⟨_, rfl⟩ := h
    exact ⟨hI, Nat.le_refl _⟩
  | Call.alloc size :: rest, st, rets, st', hI, h => by
    simp only [MemPool.run] at h
    cases ha : st.Alloc size with
    | none => simp [ha] at h
    | some r1 =>
      obtain ⟨p, st1⟩ := r1
      simp only [ha] at h
      cases hr : MemPool.run st1 rest with
      | none => simp [hr] at h
      | some r2 =>
        obtain ⟨rs, st2⟩ := r2
        simp only [hr, Option.some.injEq, Prod.mk.injEq] at h
        obtain ⟨_, rfl⟩ := h
        obtain ⟨hI1, _, _⟩ := Alloc_spec hI ha
        have hb := (allocLoop_balanced size st.chunk_sizes 0 st p st1
          ⟨hI.balance, hI.cursor_ge, hI.max_lt⟩ ha).2.1
        obtain ⟨hI2, hle⟩ := run_inv rest st1 rs st2 hI1 hr
        exact ⟨hI2, by omega⟩
  | Call.free ptr :: rest, st, rets, st', hI, h => by
    simp only [MemPool.run] at h
    cases hf : st.Free ptr with
    | none => simp [hf] at h
    | some r1 =>
      obtain ⟨b, st1⟩ := r1
      simp only [hf] at h
      cases hr : MemPool.run st1 rest with
      | none => simp [hr] at h
      | some r2 =>
        obtain ⟨rs, st2⟩ := r2
        simp only [hr, Option.some.injEq, Prod.mk.injEq] at h
        obtain ⟨_, rfl⟩ := h
        obtain ⟨hI1, hF, _, _⟩ := Free_spec hI hf
        have hb : st1.available_size = st.available_size := by rw [hF]
        obtain ⟨hI2, hle⟩ := run_inv rest st1 rs st2 hI1 hr
        exact ⟨hI2, by omega⟩

theorem oddPool_init :
    (MemPool.new 72 24 4104).Initialize [24] = (true, oddPool) := by decide

/-- C12 (as stated, refuted). First, `smallPool` has capacity 24, alignment 8,
its buffer at 4096 and the chunk sizes 8 and 16: one `Alloc(16)` succeeds, the
next returns null, and the pool of 8 has no free chunk; yet the later
`Alloc(8)` returns 4112, carved from the 8 bytes that are left. Second,
`oddPool` has capacity 72, the alignment 24, which is not a power of two, its
buffer at 4104 = 171 * 24 and the chunk size 24: `Alloc(24)` succeeds twice and
then returns null, although 72 / 24 = 3, because the bit mask of `std::align`
finds a padding of 8 bytes at 4152. -/
theorem C12_counterexample_bytes_left :
    ((MemPool.new 24 8 4096).Initialize [8, 16] = (true, smallPool) ∧
      4096 % 8 = 0 ∧ 16 ∈ smallPool.chunk_sizes ∧ 24 / 16 = 1 ∧
      smallPool.Alloc 16 = some (4096, smallPool1) ∧
      smallPool1.Alloc 16 = some (0, smallPool1) ∧
      mapFind 8 smallPool1.sub_pools = some (SubPool.new 8) ∧
      (SubPool.new 8).chunks = [] ∧
      smallPool1.Alloc 8 = some (4112, smallPool2)) ∧
    ((MemPool.new 72 24 4104).Initialize [24] = (true, oddPool) ∧
      4104 % 24 = 0 ∧ 24 ∈ oddPool.chunk_sizes ∧ 72 / 24 = 3 ∧
      (oddPool.run [Call.alloc 24, Call.alloc 24, Call.alloc 24]).map (fun r => r.1) =
        some [Ret.addr 4104, Ret.addr 4128, Ret.addr 0] ∧
      alignOffset 24 4152 = 8) := by
  decide

/-- C12 (amended): take a fresh allocator whose alignment is a power of two and
whose buffer starts at a multiple of it, initialized successfully, and a
configured chunk size `c > 0`. For every `i` up to `max_memory / c`, `i`
consecutive calls `Alloc(c)` return the non-null addresses `buffer`,
`buffer + c`, ..., one after the other without padding, and leave
`read_buffer` at `buffer + i * c` and `available_size` at
`max_memory - i * c`. After `max_memory / c` of them, `Alloc(c)` returns null
and changes nothing, and so does, after any further series of calls, every
`Alloc` whose smallest fitting chunk size has no free chunk in its pool and is
greater than `max_memory % c`, the bytes that were left. -/
theorem C12_fill_with_one_class {p_max_memory n buf c : Nat} {sizes : List Nat}
    {st0 : MemPool} (hm : p_max_memory < UINT32) (hb : 0 < buf)
    (hbase : buf % 2 ^ n = 0)
    (hinit : (MemPool.new p_max_memory (2 ^ n) buf).Initialize sizes = (true, st0))
    (hc : c ∈ st0.chunk_sizes) (hc0 : 0 < c) :
    (∀ i, i ≤ p_max_memory / c → ∃ sti,
      st0.run (List.replicate i (Call.alloc c)) =
        some ((List.range i).map (fun j => Ret.addr (buf + j * c)), sti) ∧
      (∀ j, buf + j * c ≠ 0) ∧
      sti.read_buffer = buf + i * c ∧ sti.available_size = p_max_memory - i * c) ∧
    (∃ stK, st0.run (List.replicate (p_max_memory / c) (Call.alloc c)) =
        some ((List.range (p_max_memory / c)).map (fun j => Ret.addr (buf + j * c)),
          stK) ∧
      stK.Alloc c = some (0, stK) ∧
      ∀ calls rets st', stK.run calls = some (rets, st') →
        ∀ size c' sp, c' ∈ st'.chunk_sizes → size ≤ c' →
          (∀ c'' ∈ st'.chunk_sizes, size ≤ c'' → c' ≤ c'') →
          mapFind c' st'.sub_pools = some sp → (∀ e ∈ sp.chunks, e.2 = false) →
          p_max_memory % c < c' → st'.Alloc size = some (0, st')) := by
  have hI0 := Initialize_inv hm hb hinit
  obtain ⟨hal, hrb, hav, hmult⟩ := Initialize_fresh hinit
  obtain ⟨sp0, hsp0⟩ := hI0.pools_exist c hc
  have hno0 : ∀ e ∈ sp0.chunks, e.2 = false := by
    rw [(Initialize_pools hinit c sp0 hsp0).2]
    simp [SubPool.new]
  have hround := fun i (hi : i * c ≤ p_max_memory) =>
    alloc_round n c hc0 (hmult c hc) i st0 buf p_max_memory hI0 hal hc
      ⟨sp0, hsp0, hno0⟩ hrb hbase hav hi
  have hdm : p_max_memory / c * c + p_max_memory % c = p_max_memory := by
    rw [Nat.mul_comm]
    exact Nat.div_add_mod p_max_memory c
  have hfail : ∀ (st' : MemPool), Inv st' → st'.available_size ≤ p_max_memory % c →
      ∀ size c' sp, c' ∈ st'.chunk_sizes → size ≤ c' →
        (∀ c'' ∈ st'.chunk_sizes, size ≤ c'' → c' ≤ c'') →
        mapFind c' st'.sub_pools = some sp → (∀ e ∈ sp.chunks, e.2 = false) →
        p_max_memory % c < c' → st'.Alloc size = some (0, st') := by
    intro st' hI' hle size c' sp hc' hfit hmin hsp hno hbig
    have hloop : st'.Alloc size = st'.carve c' :=
      allocLoop_smallest_fit size c' st'.chunk_sizes 0 st' hI'.sizes_sorted hc' hfit hmin
        (poolAlloc_nofree hI' hsp hno)
    rw [hloop]
    exact carve_no_room (by omega)
  refine ⟨?_, ?_⟩
  · intro i hi
    have hic : i * c ≤ p_max_memory :=
      Nat.le_trans (Nat.mul_le_mul_right c hi) (Nat.div_mul_le_self p_max_memory c)
    obtain ⟨sti, h1, _, h3, h4, _, _⟩ := hround i hic
    exact ⟨sti, h1, fun j => by omega, h3, h4⟩
  · obtain ⟨stK, h1, hIK, _, h4, ⟨spK, hspK, hnoK⟩, hcsK⟩ :=
      hround (p_max_memory / c) (Nat.div_mul_le_self p_max_memory c)
    have hcK : c ∈ stK.chunk_sizes := by rw [hcsK]; exact hc
    have havK : stK.available_size ≤ p_max_memory % c := by omega
    refine ⟨stK, h1, ?_, ?_⟩
    · exact hfail stK hIK havK c c spK hcK (Nat.le_refl _) (fun c'' _ h => h) hspK hnoK
        (Nat.mod_lt _ hc0)
    · intro calls rets st' hrun
      obtain ⟨hI', hle⟩ := run_inv calls stK rets st' hIK hrun
      exact hfail st' hI' (by omega)

theorem C12_fill_with_one_class_witness :
    (∀ i, i ≤ 2048 / 256 → ∃ sti,
      testPool.run (List.replicate i (Call.alloc 256)) =
        some ((List.range i).map (fun j => Ret.addr (4096 + j * 256)), sti) ∧
      (∀ j, 4096 + j * 256 ≠ 0) ∧
      sti.read_buffer = 4096 + i * 256 ∧ sti.available_size = 2048 - i * 256) ∧
    (∃ stK, testPool.run (List.replicate (2048 / 256) (Call.alloc 256)) =
        some ((List.range (2048 / 256)).map (fun j => Ret.addr (4096 + j * 256)), stK) ∧
      stK.Alloc 256 = some (0, stK) ∧
      ∀ calls rets st', stK.run calls = some (rets, st') →
        ∀ size c' sp, c' ∈ st'.chunk_sizes → size ≤ c' →
          (∀ c'' ∈ st'.chunk_sizes, size ≤ c'' → c' ≤ c'') →
          mapFind c' st'.sub_pools = some sp → (∀ e ∈ sp.chunks, e.2 = false) →
          2048 % 256 < c' → st'.Alloc size = some (0, st')) :=
  @C12_fill_with_one_class 2048 3 4096 256 [64, 128, 256] testPool (by decide) (by decide)
    (by decide) (by decide) (by decide) (by decide)

/-- The test `AllocOverload` of `test.cpp`: eight calls `Alloc(256)` succeed,
`Alloc(20)` returns null, and the eight addresses are freed successfully. -/
theorem AllocOverload_example :
    (testPool.run [Call.alloc 256, Call.alloc 256, Call.alloc 256, Call.alloc 256,
        Call.alloc 256, Call.alloc 256, Call.alloc 256, Call.alloc 256, Call.alloc 20,
        Call.free 4096, Call.free 4352, Call.free 4608, Call.free 4864, Call.free 5120,
        Call.free 5376, Call.free 5632, Call.free 5888]).map (fun r => r.1) =
      some [Ret.addr 4096, Ret.addr 4352, Ret.addr 4608, Ret.addr 4864, Ret.addr 5120,
        Ret.addr 5376, Ret.addr 5632, Ret.addr 5888, Ret.addr 0, Ret.done true,
        Ret.done true, Ret.done true, Ret.done true, Ret.done true, Ret.done true,
        Ret.done true, Ret.done true] := by
  decide

/-! ## The carve of the smallest fitting class -/

/-- For a power of two, the bytes that `std::align` skips are the alignment
padding. -/
theorem alignOffset_eq_padding (n ptr : Nat) :
    alignOffset (2 ^ n) ptr = padding (2 ^ n) ptr := by
  unfold alignOffset padding
  rw [Nat.and_pow_two_sub_one_eq_mod]
  have hpos : 0 < 2 ^ n := Nat.two_pow_pos n
  generalize 2 ^ n = m at hpos
  have hlt : ptr % m < m := Nat.mod_lt _ hpos
  split_ifs with h
  · rw [h, Nat.sub_zero, Nat.mod_self]
  · rw [Nat.mod_eq_of_lt (show m - ptr % m < m by omega)]

theorem oddPool2_run :
    oddPool.run [Call.alloc 24, Call.alloc 24] =
      some ([Ret.addr 4104, Ret.addr 4128], oddPool2) := by decide

theorem oddPool2_reachable : Reachable oddPool2 [4128, 4104] := by
  have h0 : Reachable oddPool [] :=
    Reachable.init 72 24 4104 [24] oddPool (by decide) (by decide) (by decide) oddPool_init
  have h1 := Reachable.alloc oddPool
    { oddPool with
      sub_pools := [(24, { chunk_size := 24, chunk_count := 1,
                           chunks := [(4104, false)] })],
      read_buffer := 4128, available_size := 48, subpool_register := [(4104, 24)] }
    [] 24 4104 h0 (by decide)
  exact Reachable.alloc _ oddPool2 [4104] 24 4128 h1 (by decide)

/-- C8 (as stated, refuted). First, in the reachable state `zeroPool1` the
smallest chunk size that fits a request of 0 bytes is 0, its pool has no free
chunk, `available_size` is 1024 and no padding is needed, and yet `Alloc(0)`
returns null: the chunk at `read_buffer` is already in the pool, so that
`AddNewChunk` adds nothing. Second, in the reachable state `oddPool2`, of
alignment 24, `read_buffer` is 4152 = 173 * 24, so that the padding is 0, the
chunk size 24 fits the 24 bytes available and its pool has no free chunk, and
yet `Alloc(24)` returns null: the bit mask of `std::align` skips 8 bytes. -/
theorem C8_counterexample_zero_size_or_odd_alignment :
    (Reachable zeroPool1 [4096] ∧
      (0 ∈ zeroPool1.chunk_sizes ∧ ∀ c' ∈ zeroPool1.chunk_sizes, 0 ≤ c' → 0 ≤ c') ∧
      mapFind 0 zeroPool1.sub_pools =
        some { chunk_size := 0, chunk_count := 1, chunks := [(4096, false)] } ∧
      ¬ (zeroPool1.available_size = 0 ∨ zeroPool1.available_size <
          padding zeroPool1.alignment zeroPool1.read_buffer + 0) ∧
      zeroPool1.Alloc 0 = some (0, zeroPool2)) ∧
    (Reachable oddPool2 [4128, 4104] ∧
      (24 ∈ oddPool2.chunk_sizes ∧ ∀ c' ∈ oddPool2.chunk_sizes, 24 ≤ c' → 24 ≤ c') ∧
      mapFind 24 oddPool2.sub_pools =
        some { chunk_size := 24, chunk_count := 2,
               chunks := [(4104, false), (4128, false)] } ∧
      padding oddPool2.alignment oddPool2.read_buffer = 0 ∧
      ¬ (oddPool2.available_size = 0 ∨ oddPool2.available_size <
          padding oddPool2.alignment oddPool2.read_buffer + 24) ∧
      alignOffset oddPool2.alignment oddPool2.read_buffer = 8 ∧
      oddPool2.Alloc 24 = some (0, oddPool2)) :=
  ⟨⟨zeroPool1_reachable, by decide, by decide, by decide, by decide⟩,
    ⟨oddPool2_reachable, by decide, by decide, by decide, by decide, by decide,
      by decide⟩⟩

/-- C8 (amended): take a reachable state of an allocator whose alignment is a
power of two, let `c` be the smallest configured chunk size that fits the
request, and let its pool have no free chunk. If `available_size` is 0 or less
than the alignment padding at `read_buffer` plus `c`, then `Alloc` returns
null and leaves the whole state as it was, whatever the pools of the larger
chunk sizes hold. Otherwise, provided `0 < c`, `Alloc` returns the non-null
address `read_buffer` plus padding, a multiple of the alignment that was not
in the pool before; it advances `read_buffer` past the chunk, takes padding
and chunk off `available_size`, registers the address to `c`, marks it used in
the pool of `c`, and leaves the pools of the other chunk sizes as they were. -/
theorem C8_smallest_fit_carves_or_fails {st : MemPool} {live : List Nat}
    {size c n : Nat} {sp : SubPool} (hR : Reachable st live)
    (hal : st.alignment = 2 ^ n) (hc : c ∈ st.chunk_sizes)
    (hfit : size ≤ c) (hmin : ∀ c' ∈ st.chunk_sizes, size ≤ c' → c ≤ c')
    (hsp : mapFind c st.sub_pools = some sp) (hno : ∀ e ∈ sp.chunks, e.2 = false) :
    ((st.available_size = 0 ∨
        st.available_size < padding st.alignment st.read_buffer + c) →
      st.Alloc size = some (0, st)) ∧
    (0 < c → ¬ (st.available_size = 0 ∨
        st.available_size < padding st.alignment st.read_buffer + c) →
      ∃ st', st.Alloc size =
          some (st.read_buffer + padding st.alignment st.read_buffer, st') ∧
        st.read_buffer + padding st.alignment st.read_buffer ≠ 0 ∧
        (st.read_buffer + padding st.alignment st.read_buffer) % st.alignment = 0 ∧
        padding st.alignment st.read_buffer < st.alignment ∧
        mapFind (st.read_buffer + padding st.alignment st.read_buffer) sp.chunks
          = none ∧
        st'.read_buffer = st.read_buffer + padding st.alignment st.read_buffer + c ∧
        st'.available_size =
          st.available_size - padding st.alignment st.read_buffer - c ∧
        mapFind (st.read_buffer + padding st.alignment st.read_buffer)
          st'.subpool_register = some c ∧
        (∃ sp', mapFind c st'.sub_pools = some sp' ∧
          mapFind (st.read_buffer + padding st.alignment st.read_buffer) sp'.chunks
            = some false) ∧
        ∀ k, k ≠ c → mapFind k st'.sub_pools = mapFind k st.sub_pools) := by
  have hI := (reachable_inv hR).1
  have hloop : st.Alloc size = st.carve c :=
    allocLoop_smallest_fit size c st.chunk_sizes 0 st hI.sizes_sorted hc hfit hmin
      (poolAlloc_nofree hI hsp hno)
  have hpad : alignOffset st.alignment st.read_buffer =
      padding st.alignment st.read_buffer := by
    rw [hal]
    exact alignOffset_eq_padding n st.read_buffer
  have hmult : (st.read_buffer + padding st.alignment st.read_buffer) % st.alignment
      = 0 := by
    rw [← hpad, hal]
    exact alignOffset_pow2 n st.read_buffer
  have hlt : padding st.alignment st.read_buffer < st.alignment := by
    unfold padding
    exact Nat.mod_lt _ (by rw [hal]; exact Nat.two_pow_pos n)
  rw [hloop, ← hpad]
  refine ⟨fun h => carve_no_room h, fun hc0 hroom => ?_⟩
  obtain ⟨st', h1, h2, h3, h4, h5, h6, h7, h8⟩ := carve_fresh hI hsp hno hc0 hroom
  exact ⟨st', h1, h2, by rw [hpad]; exact hmult, by rw [hpad]; exact hlt, h3, h4, h5, h6,
    h7, h8⟩

theorem smallPool5_free : smallPool2.Free 4096 = some (true, smallPool5) := by decide

theorem smallPool5_reachable : Reachable smallPool5 [4112] :=
  Reachable.free smallPool2 smallPool5 [4112, 4096] 4096 true smallPool2_reachable
    smallPool5_free

theorem C8_smallest_fit_carves_or_fails_witness :
    (∃ st', testPool.Alloc 50 =
        some (testPool.read_buffer + padding testPool.alignment testPool.read_buffer,
          st') ∧
      testPool.read_buffer + padding testPool.alignment testPool.read_buffer ≠ 0 ∧
      (testPool.read_buffer + padding testPool.alignment testPool.read_buffer) %
        testPool.alignment = 0 ∧
      padding testPool.alignment testPool.read_buffer < testPool.alignment ∧
      mapFind (testPool.read_buffer + padding testPool.alignment testPool.read_buffer)
        (SubPool.new 64).chunks = none ∧
      st'.read_buffer =
        testPool.read_buffer + padding testPool.alignment testPool.read_buffer + 64 ∧
      st'.available_size =
        testPool.available_size - padding testPool.alignment testPool.read_buffer - 64 ∧
      mapFind (testPool.read_buffer + padding testPool.alignment testPool.read_buffer)
        st'.subpool_register = some 64 ∧
      (∃ sp', mapFind 64 st'.sub_pools = some sp' ∧
        mapFind (testPool.read_buffer + padding testPool.alignment testPool.read_buffer)
          sp'.chunks = some false) ∧
      ∀ k, k ≠ 64 → mapFind k st'.sub_pools = mapFind k testPool.sub_pools) ∧
    (smallPool5.available_size = 0 ∧
      mapFind 16 smallPool5.sub_pools =
        some { chunk_size := 16, chunk_count := 1, chunks := [(4096, true)] } ∧
      smallPool5.Alloc 8 = some (0, smallPool5)) :=
  ⟨(@C8_smallest_fit_carves_or_fails testPool [] 50 64 3 (SubPool.new 64)
      testPool_reachable (by decide) (by decide) (by decide) (by decide) (by decide)
      (by decide)).2 (by decide) (by decide),
    by decide, by decide,
    (@C8_smallest_fit_carves_or_fails smallPool5 [4112] 8 8 3
      { chunk_size := 8, chunk_count := 1, chunks := [(4112, false)] }
      smallPool5_reachable (by decide) (by decide) (by decide) (by decide) (by decide)
      (by decide)).1 (Or.inl (by decide))⟩

end MemoryPool
